import Mathlib

/-!
# A verification model of the `fission` reactive-state engine

This file gives a shallow embedding, in Lean 4, of the reactivity engine of
the repository: the reactivity-mode state machine with its deferred queue
(`src/observer/reactivity-state.ts`), observables and computed observables
(`src/observer/observable.ts`, `computed-observable.ts`), the property
interceptor (`src/observer/observer.ts`), the array-method interceptor
(`src/observer/array.ts`), and the store facade's `$commit` bracketing
(`store.ts`).

The dynamic model (`namespace Fission`) embeds one observed plain object
(its enumerable fields, scalar or computed) together with one observed
array, the process-wide reactivity mode, the evaluation marker
(`currentEvaluatingObservable`) and the deferred-action queue, all threaded
through an explicit `EngineState`.  JavaScript values are defunctionalised
to `Val` (numbers, strings, `undefined`, arrays of values); computed
functions are defunctionalised to the expression language `CExpr`
(literals, reads of sibling fields, multiplication, and a throwing
expression), which is interpreted exactly the way the intercepted getters
execute reads.  Watcher callbacks are identified by numeric ids; the
environment `wenv : Nat → Val → Val → Bool` says which invocations throw,
and every invocation is recorded in a ghost log so that notification
counts can be stated.  Recursion through the dependent-computed cascade
(`Observable.update`) has no cycle guard in the source, so it is modelled
with explicit fuel.

A second, structural model (`namespace FissionHeap`) embeds the recursive
`observe`/`observeObject` walk over an explicit heap of objects, so that
identity of the returned reference, accessor installation and sealing can
be stated and proved.
-/

namespace Fission

/-- Scalar JavaScript values as used by the engine under verification:
numbers, strings, and `undefined`. -/
inductive Val where
  | num (n : Int)
  | str (s : String)
  | undef
deriving DecidableEq, Repr

/-- A JavaScript value that may also be an array (represented by its
contents): the values stored in observables and returned by the native
array mutator methods.  Observed arrays hold scalar items in this model;
the claims under verification only exercise scalar elements. -/
inductive JVal where
  | sc (v : Val)
  | arrv (items : List Val)
deriving DecidableEq, Repr

/-- The three reactivity states of `reactivity-state.ts` (`ReactivityState`). -/
inductive ReactivityState where
  | Disabled
  | Lazy
  | Enabled
deriving DecidableEq, Repr

/-- Errors that propagate to the caller (thrown, not swallowed). -/
inductive Err where
  /-- `REACTIVITY_DISABLED_EXCEPTION` of `reactivity-state.ts`. -/
  | mutationDisabled
  /-- Assignment to a computed property, whose `set` accessor is `undefined`. -/
  | noSetter
  /-- Assignment to a property that was never intercepted. -/
  | missingProperty
  /-- An exception raised by an externally enqueued queue item. -/
  | externalThrow (id : Nat)
deriving DecidableEq, Repr

/-- Swallowed/logged events (`logError`, `logWarning`): watcher failures in
`Observable.update`, computed failures in `ComputedObservable.evaluate`,
and the missing-mutation warning of `Store.$commit`. -/
inductive ErrEvent where
  | watcherFailed (w : Nat)
  | computedFailed
  | missingMutation (name : String)
deriving DecidableEq, Repr

/-- Defunctionalised computed-function bodies (`ComputedFunction`): a body
can return a literal, read a sibling reactive property (`this.key`),
multiply two sub-results, or throw. -/
inductive CExpr where
  | lit (v : Val)
  | field (k : String)
  | mul (a b : CExpr)
  | throwE
deriving DecidableEq, Repr

/-- Raw (pre-interception) property values of the observed plain object:
plain data values or function-valued fields (computed definitions). -/
inductive SrcVal where
  | val (v : Val)
  | fn (e : CExpr)
deriving DecidableEq, Repr

/-- The state owned by one `Observable`: its current `value`, its watcher
list (`_watchers`, watcher ids in insertion order) and its observer list
(`_observers`, keys of dependent computed fields in insertion order). -/
structure ObsCore where
  value : JVal
  watchers : List Nat
  observers : List String
deriving DecidableEq, Repr

/-- A reactive property installed by `defineReactiveProperty`: either a
plain scalar backed by an `Observable`, or a computed field backed by a
`ComputedObservable` holding its defunctionalised body. -/
inductive Field where
  | scalar (obs : ObsCore)
  | computed (fn : CExpr) (obs : ObsCore)
deriving DecidableEq, Repr

/-- The backing `ObsCore` of a reactive property. -/
def Field.core : Field → ObsCore
  | .scalar o => o
  | .computed _ o => o

/-- Replace the backing `ObsCore` of a reactive property. -/
def Field.withCore : Field → ObsCore → Field
  | .scalar _, o => .scalar o
  | .computed e _, o => .computed e o

/-- Identifies an observable in the engine state: the observable backing an
object field, or the observable attached to the observed array
(`ATTACHED_OBSERVABLE_KEY`). -/
inductive ObsRef where
  | fld (k : String)
  | arr
deriving DecidableEq, Repr

/-- Wrapped array mutator methods (`array.ts` patches exactly these). -/
inductive AMethod where
  | push
  | pop
  | shift
  | unshift
  | splice
  | sort
  | reverse
deriving DecidableEq, Repr

/-- Deferred-queue items (`ReactivityQueueItem`), defunctionalised to the
closures the repository actually enqueues: a scalar reactive setter
replay (`{func: reactiveSetter, args: [value]}`), a wrapped array mutator
replay (`{context: this, func: mutator, args}`), and an externally
enqueued function (the public `addReactivityQueueItem` accepts any
function), which either records its invocation or throws. -/
inductive QItem where
  | setterWrite (k : String) (v : Val)
  | arrayMut (m : AMethod) (args : List Val)
  | external (id : Nat) (args : List Val) (throws : Bool)
deriving DecidableEq, Repr

/-- One recorded watcher invocation: which observable notified, which
watcher id was called, with the `(newValue, oldValue)` pair it received. -/
structure NotifyEntry where
  ref : ObsRef
  watcher : Nat
  newVal : JVal
  oldVal : JVal
deriving DecidableEq, Repr

/-- The whole engine state: the process-wide reactivity mode, the
evaluation marker (`currentEvaluatingObservable`, identified by the key of
the computed being constructed), the deferred queue, the observed plain
object (raw pre-interception properties plus installed reactive fields and
its sealed flag), the observed array (its items, its attached observable,
its per-element observables), and ghost instrumentation: the indices
handed to `defineReactiveProperty` by `observeArrayItems` (`obsCalls`),
the watcher-invocation log, the swallowed-error log, the invocation log of
externally enqueued functions, and the replay order of drained queue
items. -/
structure EngineState where
  reactivityState : ReactivityState
  marker : Option String
  queue : List QItem
  raw : List (String × SrcVal)
  fields : List (String × Field)
  objSealed : Bool
  arrItems : List Val
  arrObs : ObsCore
  arrElemObs : List (Int × ObsCore)
  obsCalls : List Int
  log : List NotifyEntry
  errLog : List ErrEvent
  callLog : List (Nat × List Val)
  replayLog : List QItem
deriving DecidableEq, Repr

/-- `setReactivityState` of `reactivity-state.ts`: assigns the new state
when it differs from the current one (membership of the new state in the
enum always holds in this typed model). -/
def setRState (st : EngineState) (s : ReactivityState) : EngineState :=
  if s ≠ st.reactivityState then { st with reactivityState := s } else st

/-- Look up an installed reactive property by key. -/
def lookupField (st : EngineState) (k : String) : Option Field :=
  (st.fields.find? (fun p => p.1 == k)).map (·.2)

/-- Rewrite the reactive property at key `k` (no-op when absent). -/
def mapField (st : EngineState) (k : String) (f : Field → Field) : EngineState :=
  { st with fields := st.fields.map (fun p => if p.1 == k then (p.1, f p.2) else p) }

/-- The observable designated by `ref`, if it exists. -/
def getObs (st : EngineState) : ObsRef → Option ObsCore
  | .fld k => (lookupField st k).map Field.core
  | .arr => some st.arrObs

/-- Store a new `value` into the observable designated by `ref`
(`this.value = value` inside `Observable.update`). -/
def setObsValue (st : EngineState) (ref : ObsRef) (v : JVal) : EngineState :=
  match ref with
  | .fld k => mapField st k (fun f => f.withCore { f.core with value := v })
  | .arr => { st with arrObs := { st.arrObs with value := v } }

/-- `Observable.observe`: idempotently append a dependent computed
(identified by its key) to the observer list of the observable backing
field `k`. -/
def registerObserver (st : EngineState) (k : String) (m : String) : EngineState :=
  mapField st k (fun f =>
    let o := f.core
    if m ∈ o.observers then f else f.withCore { o with observers := o.observers ++ [m] })

/-- The read path of `reactiveGetter` in `defineReactiveProperty` (the
ordinary, non-raw request): when the evaluation marker is set, register
the marked computed as a dependent of this field's observable
(`currentEvaluatingObservable && observable.observe(...)`), then return
the observable's current value.  A key that was never intercepted falls
back to the raw (pre-interception) property of the underlying object;
reading a raw function-valued property yields no scalar and is modelled
as `undefined`. -/
def readField (st : EngineState) (k : String) : EngineState × JVal :=
  match lookupField st k with
  | some f =>
      let st' := match st.marker with
        | some m => registerObserver st k m
        | none => st
      (st', f.core.value)
  | none =>
      match st.raw.find? (fun p => p.1 == k) with
      | some (_, .val v) => (st, .sc v)
      | _ => (st, .sc .undef)

/-- JavaScript multiplication restricted to the values of this model:
numbers multiply, anything else is `NaN`, modelled as `undefined`. -/
def jsMul : JVal → JVal → JVal
  | .sc (.num a), .sc (.num b) => .sc (.num (a * b))
  | _, _ => .sc (.undef)

/-- Interpreter for defunctionalised computed-function bodies.  A `field`
read goes through `readField`, i.e. through the intercepted getter, which
performs dependency registration exactly when the evaluation marker is
set.  `throwE` raises; `mul` evaluates left-to-right strictly. -/
def interp (st : EngineState) : CExpr → EngineState × Except Unit JVal
  | .lit v => (st, .ok (.sc v))
  | .field k =>
      let p := readField st k
      (p.1, .ok p.2)
  | .mul a b =>
      match interp st a with
      | (st1, .ok va) =>
          match interp st1 b with
          | (st2, .ok vb) => (st2, .ok (jsMul va vb))
          | (st2, .error u) => (st2, .error u)
      | (st1, .error u) => (st1, .error u)
  | .throwE => (st, .error ())

/-- `ComputedObservable.evaluate`: record the current reactivity state,
force `Disabled` (computed functions must be pure), run the computed
function; on an exception log `COMPUTED_FUNCTION_EXCEPTION` and yield
`undefined`; in all cases (the `finally` block) restore the recorded
reactivity state. -/
def evalGuarded (st : EngineState) (e : CExpr) : EngineState × JVal :=
  match interp (setRState st .Disabled) e with
  | (st2, .ok v) => (setRState st2 st.reactivityState, v)
  | (st2, .error _) =>
      (setRState { st2 with errLog := st2.errLog ++ [.computedFailed] } st.reactivityState,
        .sc .undef)

/-- The watcher loop of `Observable.update`: call every registered watcher
with `(value, oldValue)`; a watcher that throws (per the environment
`wenv`) has its exception caught and logged (`WATCHER_EXCEPTION`) and does
not prevent the remaining watchers from running.  Every invocation is
recorded in the ghost log. -/
def notifyWatchers (wenv : Nat → JVal → JVal → Bool) (st : EngineState) (ref : ObsRef)
    (ws : List Nat) (v oldV : JVal) : EngineState :=
  ws.foldl
    (fun s w =>
      let s1 := { s with log := s.log ++ [⟨ref, w, v, oldV⟩] }
      if wenv w v oldV then { s1 with errLog := s1.errLog ++ [.watcherFailed w] } else s1)
    st

/-- `ComputedObservable.evaluate` invoked on the dependent computed stored
at key `c` (as `Observable.update` does via `this._observers[i].evaluate()`).
A key that is not a computed field evaluates to `undefined`. -/
def evaluateComp (st : EngineState) (c : String) : EngineState × JVal :=
  match lookupField st c with
  | some (.computed e _) => evalGuarded st e
  | _ => (st, .sc .undef)

/-- `Observable.update`, with explicit fuel for the dependent-computed
cascade (the source has no cycle guard): store the old value, assign the
new value, notify every watcher (fault-isolated), then for every dependent
computed `c` run `c.update(c.evaluate())` recursively. -/
def updateObs (wenv : Nat → JVal → JVal → Bool) : Nat → EngineState → ObsRef → JVal → EngineState
  | 0, st, _, _ => st
  | fuel + 1, st, ref, v =>
      match getObs st ref with
      | none => st
      | some core =>
          let oldV := core.value
          let st1 := setObsValue st ref v
          let st2 := notifyWatchers wenv st1 ref core.watchers v oldV
          core.observers.foldl
            (fun s c =>
              let p := evaluateComp s c
              updateObs wenv fuel p.1 (.fld c) p.2)
            st2

/-- `reactiveSetter` of `defineReactiveProperty`, for a plain data field
(no pre-existing user accessors), dispatched on the reactivity state:

* `Enabled`: if the new value differs from the stored value, make the new
  value's subtree reactive (a no-op for the scalar values of this model)
  and run `observable.update`;
* `Disabled`: throw `REACTIVITY_DISABLED_EXCEPTION` — nothing is mutated;
* `Lazy`: enqueue `{func: reactiveSetter, args: [value]}` and return.

Assigning to a computed field fails because its `set` accessor is
`undefined`; assigning to a non-intercepted key on the sealed object also
fails.  The returned state reflects all mutations performed before any
thrown error (there are none on the error paths, which is what claim C5
asserts). -/
def setField (wenv : Nat → JVal → JVal → Bool) (fuel : Nat) (st : EngineState) (k : String)
    (v : Val) : EngineState × Except Err Unit :=
  match lookupField st k with
  | some (.scalar core) =>
      match st.reactivityState with
      | .Enabled =>
          if core.value ≠ .sc v then (updateObs wenv fuel st (.fld k) (.sc v), .ok ())
          else (st, .ok ())
      | .Disabled => (st, .error .mutationDisabled)
      | .Lazy => ({ st with queue := st.queue ++ [.setterWrite k v] }, .ok ())
  | some (.computed _ _) => (st, .error .noSetter)
  | none => (st, .error .missingProperty)

/-- `observeObject` restricted to the single observed plain object of this
model: walk the raw enumerable properties in order; a function-valued
property becomes a `ComputedObservable` (constructor: set the evaluation
marker to the new computed, evaluate, store the result, clear the
marker), any other property becomes an `Observable` holding the value
(recursive observation of a scalar is a no-op); each property is then
installed by `defineReactiveProperty`.  The object is not an array, so it
is sealed afterwards (`Object.seal`). -/
def observeObject (st : EngineState) : EngineState :=
  let st' := st.raw.foldl
    (fun s p =>
      match p.2 with
      | .val v => { s with fields := s.fields ++ [(p.1, .scalar ⟨.sc v, [], []⟩)] }
      | .fn e =>
          let s1 := { s with marker := some p.1 }
          let q := evalGuarded s1 e
          let s3 := { q.1 with marker := none }
          { s3 with fields := s3.fields ++ [(p.1, .computed e ⟨q.2, [], []⟩)] })
    st
  { st' with objSealed := true }

/-- JavaScript `ToInteger` restricted to this model's scalars: numbers are
themselves; `undefined` and non-numeric strings coerce through `NaN` to 0
(numeric-string coercion is not modelled; the claims only pass numbers). -/
def toInt : Val → Int
  | .num n => n
  | _ => 0

/-- ECMA `Array.prototype.splice` start-index clamping. -/
def clampStart (len : Nat) (rel : Int) : Nat :=
  if rel < 0 then (max ((len : Int) + rel) 0).toNat else min rel.toNat len

/-- Native `Array.prototype.splice` on the items of the observed array:
returns the new contents and the removed-elements array (the native
result).  With fewer than two arguments the missing `deleteCount` deletes
to the end of the array (one argument) or nothing (no arguments). -/
def spliceNative (items : List Val) (args : List Val) : List Val × JVal :=
  match args with
  | [] => (items, .arrv [])
  | [s] =>
      let a := clampStart items.length (toInt s)
      (items.take a, .arrv (items.drop a))
  | s :: d :: rest =>
      let a := clampStart items.length (toInt s)
      let dc := (min (max (toInt d) 0) ((items.length : Int) - a)).toNat
      let removed := (items.drop a).take dc
      (items.take a ++ rest ++ items.drop (a + dc), .arrv removed)

/-- ECMA default sort order for this model's scalars: by string key, with
`undefined` elements sorted to the end. -/
def valKey : Val → String
  | .num n => toString n
  | .str s => s
  | .undef => ""

/-- Insertion step of the default sort. -/
def insertSorted (v : Val) : List Val → List Val
  | [] => [v]
  | w :: ws => if valKey v ≤ valKey w then v :: w :: ws else w :: insertSorted v ws

/-- Default (comparator-less) `Array.prototype.sort` for scalar items. -/
def sortNative (items : List Val) : List Val :=
  let keep := items.filter (fun v => v ≠ .undef)
  let us := items.filter (fun v => v = .undef)
  keep.foldr insertSorted [] ++ us

/-- The cached original `Array.prototype` method applied by `mutator`
(`original.apply(this, arguments)`): the mutated contents and the native
result.  `push`/`unshift` return the new length, `pop`/`shift` the removed
element (or `undefined`), `splice` the removed-elements array, and
`sort`/`reverse` the array itself. -/
def nativeApply (items : List Val) (m : AMethod) (args : List Val) : List Val × JVal :=
  match m with
  | .push =>
      let its := items ++ args
      (its, .sc (.num its.length))
  | .pop =>
      match items.getLast? with
      | none => (items, .sc .undef)
      | some v => (items.dropLast, .sc v)
  | .shift =>
      match items with
      | [] => (items, .sc .undef)
      | h :: t => (t, .sc h)
  | .unshift =>
      let its := args ++ items
      (its, .sc (.num its.length))
  | .splice => spliceNative items args
  | .sort =>
      let its := sortNative items
      (its, .arrv its)
  | .reverse =>
      let its := items.reverse
      (its, .arrv its)

/-- The half-open integer interval `[a, b)` as a list (the index sequence
of the `for (let i = start; i < stop; i++)` loop in `observeArrayItems`). -/
def intRange (a b : Int) : List Int :=
  (List.range (b - a).toNat).map (fun i => a + i)

/-- The element at (possibly out-of-range) index `i`, reading `undefined`
outside the array, as JavaScript indexing does. -/
def elemAt (items : List Val) (i : Int) : Val :=
  if i < 0 then .undef else items.getD i.toNat (.undef)

/-- `observeArrayItems` of `array.ts`: for every index `i` in
`[start, stop)`, make the item reactive — `observeObject(array[i])` (a
no-op for the scalar items of this model), then
`defineReactiveProperty(array, i, new Observable(array[i]))`, which
installs a fresh element observable at that index.  Each
`defineReactiveProperty` call is recorded in the ghost `obsCalls` list. -/
def observeArrayItems (st : EngineState) (start stop : Int) : EngineState :=
  (intRange start stop).foldl
    (fun s i =>
      let obs : ObsCore := ⟨.sc (elemAt s.arrItems i), [], []⟩
      { s with
          arrElemObs := s.arrElemObs.filter (fun p => p.1 ≠ i) ++ [(i, obs)],
          obsCalls := s.obsCalls ++ [i] })
    st

/-- The `mutator` wrapper installed over every array mutator method by
`array.ts`, dispatched on the reactivity state:

* `Enabled`: apply the original method; for `push`/`unshift` observe the
  last `arguments.length` items, for `splice` observe the last
  `insertedAmount = max(0, arguments.length − arguments[1])` items (when
  `arguments[1]` is not a number the subtraction is `NaN` and the
  observation loop never runs); then call `update` on the attached
  observable, passing the array itself; return the native result;
* `Disabled`: throw `REACTIVITY_DISABLED_EXCEPTION` — nothing is mutated;
* `Lazy`: enqueue `{context: this, func: mutator, args}` and return
  `undefined`. -/
def mutator (wenv : Nat → JVal → JVal → Bool) (fuel : Nat) (st : EngineState) (m : AMethod)
    (args : List Val) : EngineState × Except Err JVal :=
  match st.reactivityState with
  | .Enabled =>
      let na := nativeApply st.arrItems m args
      let st1 := { st with arrItems := na.1 }
      let st2 :=
        match m with
        | .push | .unshift =>
            observeArrayItems st1 ((na.1.length : Int) - args.length) na.1.length
        | .splice =>
            match args.get? 1 with
            | some (.num d) =>
                let ins : Int := max 0 ((args.length : Int) - d)
                observeArrayItems st1 ((na.1.length : Int) - ins) na.1.length
            | _ => st1
        | _ => st1
      let st3 := updateObs wenv fuel st2 .arr (.arrv na.1)
      (st3, .ok na.2)
  | .Disabled => (st, .error .mutationDisabled)
  | .Lazy => ({ st with queue := st.queue ++ [.arrayMut m args] }, .ok (.sc .undef))

/-- Invoke one drained queue item (`item.func.apply(item.context,
item.args)`): a deferred scalar write replays the reactive setter, a
deferred array mutation replays the wrapped mutator, an external item
records its invocation or throws. -/
def replayItem (wenv : Nat → JVal → JVal → Bool) (fuel : Nat) (st : EngineState) :
    QItem → EngineState × Option Err
  | .setterWrite k v =>
      let p := setField wenv fuel st k v
      (p.1, match p.2 with | .ok _ => none | .error e => some e)
  | .arrayMut m args =>
      let p := mutator wenv fuel st m args
      (p.1, match p.2 with | .ok _ => none | .error e => some e)
  | .external id args thr =>
      if thr then (st, some (.externalThrow id))
      else ({ st with callLog := st.callLog ++ [(id, args)] }, none)

/-- The `while (reactivityActionQueue.length > 0)` loop of
`processReactivityQueue`: shift the head item and invoke it; an exception
from an item propagates immediately, leaving the remaining items queued.
Each popped item is recorded in the ghost `replayLog`.  The loop is
bounded by explicit fuel; no replayed item re-enqueues while the state is
`Enabled`, so any fuel at least the queue length is exact. -/
def drainLoop (wenv : Nat → JVal → JVal → Bool) (fuel : Nat) :
    Nat → EngineState → EngineState × Option Err
  | 0, st => (st, none)
  | n + 1, st =>
      match st.queue with
      | [] => (st, none)
      | it :: rest =>
          let st0 := { st with queue := rest, replayLog := st.replayLog ++ [it] }
          let p := replayItem wenv fuel st0 it
          match p.2 with
          | some e => (p.1, some e)
          | none => drainLoop wenv fuel n p.1

/-- `processReactivityQueue` of `reactivity-state.ts`: record the current
reactivity state, force `Enabled`, drain the queue head-first, then
restore the recorded state.  The source has no `try`/`finally` here: when
a replayed item throws, the restore statement is never reached and the
exception propagates with the state left as the drain left it. -/
def processReactivityQueue (wenv : Nat → JVal → JVal → Bool) (fuel qfuel : Nat)
    (st : EngineState) : EngineState × Option Err :=
  match drainLoop wenv fuel qfuel (setRState st .Enabled) with
  | (st2, none) => (setRState st2 st.reactivityState, none)
  | (st2, some e) => (st2, some e)

/-- `purgeReactivityQueue`: discard all queued items without invoking
them. -/
def purgeReactivityQueue (st : EngineState) : EngineState :=
  { st with queue := [] }

/-- A store mutation body for `$commit`: arbitrary user code acting on the
engine state, returning a result or throwing. -/
def MutFn : Type := EngineState → EngineState × Except Err JVal

/-- `Store.$commit`: look up the mutation; when it exists, set the
reactivity state to `Enabled`, invoke the mutation, and in the `finally`
block set the reactivity state to `Disabled` (the `catch` merely
rethrows); the mutation's result or exception is passed through.  A
missing mutation only logs a warning and yields `undefined`. -/
def commit (muts : List (String × MutFn)) (name : String) (st : EngineState) :
    EngineState × Except Err JVal :=
  match (muts.find? (fun p => p.1 == name)).map (fun p => p.2) with
  | some f =>
      let st1 := setRState st .Enabled
      let p := f st1
      (setRState p.1 .Disabled, p.2)
  | none =>
      ({ st with errLog := st.errLog ++ [.missingMutation name] }, .ok (.sc .undef))

/-- With no evaluation marker set, the intercepted getter registers
nothing: a read leaves the state unchanged. -/
theorem readField_marker_none (st : EngineState) (k : String) (h : st.marker = none) :
    (readField st k).1 = st := by
  unfold readField
  cases hf : lookupField st k with
  | some f => rw [h]
  | none =>
      cases hr : st.raw.find? (fun p => p.1 == k) with
      | none => rfl
      | some p =>
          rcases p with ⟨k2, sv⟩
          cases sv <;> rfl

/-- With no evaluation marker set, evaluating a computed body performs no
state change at all. -/
theorem interp_marker_none (e : CExpr) :
    ∀ st : EngineState, st.marker = none → (interp st e).1 = st := by
  induction e with
  | lit v => intro st h; rfl
  | field k => intro st h; exact readField_marker_none st k h
  | mul a b iha ihb =>
      intro st h
      unfold interp
      split
      · rename_i st1 va hA
        have e1 : st1 = st := by
          have hx := iha st h
          rw [hA] at hx
          exact hx
        subst e1
        split
        · rename_i st2 vb hB
          have e2 : st2 = st1 := by
            have hx := ihb st1 h
            rw [hB] at hx
            exact hx
          simp [e2]
        · rename_i st2 u hB
          have e2 : st2 = st1 := by
            have hx := ihb st1 h
            rw [hB] at hx
            exact hx
          simp [e2]
      · rename_i st1 u hA
        have e1 : st1 = st := by
          have hx := iha st h
          rw [hA] at hx
          exact hx
        simp [e1]
  | throwE => intro st h; rfl

/-- A fold invariant that may use membership of the step input in the
folded list. -/
theorem foldl_invariant_mem {α β : Type _} (f : β → α → β) (P : β → Prop) :
    ∀ l : List α, (∀ b a, a ∈ l → P b → P (f b a)) → ∀ b, P b → P (l.foldl f b) := by
  intro l
  induction l with
  | nil => intro _ b hb; exact hb
  | cons x xs ih =>
      intro h b hb
      exact ih (fun b a ha hp => h b a (List.mem_cons_of_mem x ha) hp) (f b x)
        (h b x (List.mem_cons_self x xs) hb)

/-- Filtering a list on a predicate that fails everywhere gives `[]`. -/
theorem filter_none_of {α : Type _} (q : α → Bool) :
    ∀ l : List α, (∀ a ∈ l, q a = false) → l.filter q = [] := by
  intro l
  induction l with
  | nil => intro _; rfl
  | cons x xs ih =>
      intro h
      have hx := h x (List.mem_cons_self x xs)
      simp only [List.filter_cons, hx, Bool.false_eq_true, if_false]
      exact ih fun a ha => h a (List.mem_cons_of_mem x ha)

/-- `find?` over a single-key rewrite of an association list. -/
theorem find_map_keyed (g : Field → Field) (k k2 : String) :
    ∀ l : List (String × Field),
      (l.map (fun p => if p.1 == k2 then (p.1, g p.2) else p)).find? (fun p => p.1 == k) =
        if k = k2 then (l.find? (fun p => p.1 == k)).map (fun p => (p.1, g p.2))
        else l.find? (fun p => p.1 == k) := by
  intro l
  induction l with
  | nil => by_cases h : k = k2 <;> simp [h]
  | cons x xs ih =>
      simp only [List.map_cons, List.find?_cons]
      by_cases h2 : x.1 = k2
      · by_cases h1 : x.1 = k
        · have hk : k = k2 := h1.symm.trans h2
          simp [h1, h2, hk, ih, -List.find?_map]
        · have hbk : ¬ k2 = k := fun hc => h1 (h2.trans hc)
          have hk : ¬ k = k2 := fun hc => hbk hc.symm
          have hb : (k2 == k) = false := beq_eq_false_iff_ne.mpr hbk
          simp [h2, hb, hk, -List.find?_map]
          simpa [hk, -List.find?_map] using ih
      · by_cases h1 : x.1 = k
        · have hk : ¬ k = k2 := fun hc => h2 (h1.trans hc)
          simp [h1, h2, hk, -List.find?_map]
        · have hb : (x.1 == k) = false := beq_eq_false_iff_ne.mpr h1
          simp [hb, h2, -List.find?_map]
          simpa [-List.find?_map] using ih

/-- `lookupField` after a single-key rewrite. -/
theorem lookupField_mapField (st : EngineState) (k2 : String) (g : Field → Field) (k : String) :
    lookupField (mapField st k2 g) k =
      if k = k2 then (lookupField st k).map g else lookupField st k := by
  have hfk := find_map_keyed g k k2 st.fields
  unfold lookupField mapField
  dsimp only
  rw [hfk]
  by_cases h : k = k2
  · rw [if_pos h, if_pos h]
    cases st.fields.find? (fun p => p.1 == k) <;> rfl
  · rw [if_neg h, if_neg h]

/-- A write to a different observable leaves a field's lookup unchanged. -/
theorem lookupField_setObsValue_ne (st : EngineState) (ref : ObsRef) (v : JVal) (k : String)
    (h : ref ≠ .fld k) : lookupField (setObsValue st ref v) k = lookupField st k := by
  cases ref with
  | arr => rfl
  | fld k2 =>
      have hk : k ≠ k2 := fun hc => h (by rw [hc])
      unfold setObsValue
      rw [lookupField_mapField, if_neg hk]

/-- A write to a field's own observable stores exactly the new value. -/
theorem lookupField_setObsValue_self (st : EngineState) (k : String) (v : JVal) :
    lookupField (setObsValue st (.fld k) v) k =
      (lookupField st k).map (fun f => f.withCore { f.core with value := v }) := by
  unfold setObsValue
  rw [lookupField_mapField, if_pos rfl]

/-- A found association-list entry is a member with the looked-up key. -/
theorem lookupField_mem {st : EngineState} {k : String} {f : Field}
    (h : lookupField st k = some f) : (k, f) ∈ st.fields := by
  unfold lookupField at h
  cases hf : st.fields.find? (fun p => p.1 == k) with
  | none => rw [hf] at h; cases h
  | some p =>
      rw [hf] at h
      have hm := List.mem_of_find?_eq_some hf
      have hp := List.find?_some hf
      have hk : p.1 = k := by simpa using hp
      have hv : p.2 = f := by simpa using h
      rw [← hk, ← hv]
      exact hm

end Fission

namespace FissionHeap

/-!
The structural model of `observe`/`observeObject`: an explicit heap of
JavaScript objects, deep enough to state identity of the returned
reference, replacement of every enumerable property by an intercepted
accessor, sealing of plain aggregates, and non-sealing of arrays.  The
dynamic behaviour of the installed accessors is the subject of the
`Fission` namespace; here observables are just heap-allocated cells
(`obsVals`), and the evaluation a `ComputedObservable` performs at
construction time is not needed for the structural claims, so a computed
observable simply stores `undefined`.
-/

/-- Heap values: primitives, functions, and references to heap objects. -/
inductive HVal where
  | prim (n : Int)
  | fn
  | undef
  | ref (a : Nat)
deriving DecidableEq, Repr

/-- An enumerable own property: either still a plain data property, or an
intercepted getter/setter accessor backed by the observable `obsId` (the
result of `defineReactiveProperty`). -/
inductive HProp where
  | data (v : HVal)
  | accessor (obsId : Nat)
deriving DecidableEq, Repr

/-- Object kinds distinguished by the source: plain objects
(`isPlainObject`), arrays (`Array.isArray`), and other non-plain objects
(class instances etc., for which `isObject` still holds). -/
inductive HKind where
  | plain
  | arr
  | other
deriving DecidableEq, Repr

/-- A heap object: its kind, its enumerable own properties in key order,
its sealed flag (`Object.seal`), whether the non-enumerable
`ATTACHED_OBSERVABLE_KEY` has been defined on it, which observable that
key holds, and whether its prototype has been swapped to the patched
array-method table (`prototypeAugment`). -/
structure HObj where
  kind : HKind
  props : List (String × HProp)
  objSealed : Bool
  attachedDefined : Bool
  attachedObs : Option Nat
  augmented : Bool
deriving DecidableEq, Repr

/-- The heap: objects by address, observables by id with their stored
value, and the next fresh observable id. -/
structure Heap where
  objs : List (Nat × HObj)
  obsVals : List (Nat × HVal)
  nextObs : Nat
deriving DecidableEq, Repr

/-- Look up the object at address `a`. -/
def getObj (h : Heap) (a : Nat) : Option HObj :=
  (h.objs.find? (fun p => p.1 == a)).map (fun p => p.2)

/-- Rewrite the object at address `a` (no-op when absent). -/
def mapObj (h : Heap) (a : Nat) (f : HObj → HObj) : Heap :=
  { h with objs := h.objs.map (fun p => if p.1 == a then (p.1, f p.2) else p) }

/-- `new Observable(value)`: allocate a fresh observable cell. -/
def newObservable (h : Heap) (v : HVal) : Heap × Nat :=
  ({ h with obsVals := h.obsVals ++ [(h.nextObs, v)], nextObs := h.nextObs + 1 }, h.nextObs)

/-- Read a property's current value (`data[keys[i]]`): a data property
yields its value, an accessor reads its backing observable. -/
def propValue (h : Heap) : HProp → HVal
  | .data v => v
  | .accessor i => ((h.obsVals.find? (fun p => p.1 == i)).map (fun p => p.2)).getD (.undef)

/-- `defineReactiveProperty`: replace the property at key `k` with an
intercepted accessor backed by observable `oid`. -/
def installAccessor (h : Heap) (a : Nat) (k : String) (oid : Nat) : Heap :=
  mapObj h a (fun o =>
    { o with props := o.props.map (fun p => if p.1 == k then (p.1, .accessor oid) else p) })

/-- `observeObject` of `observer.ts` over the heap, with explicit fuel for
the recursion into nested objects (the source recurses unboundedly and
would overflow on cyclic data; the returned flag is `false` iff the fuel
ran out somewhere, i.e. iff the run is not faithful to a terminating
JavaScript execution).  For each enumerable key, in order: a
function-valued property gets a fresh `ComputedObservable`; any other
value gets a fresh `Observable` and, when it is an object reference, is
recursively observed first; the property is then replaced by an
intercepted accessor.  Afterwards an array that does not yet carry
`ATTACHED_OBSERVABLE_KEY` gets the passed-in observable attached and its
prototype augmented, while any non-array object is sealed. -/
def observeObject : Nat → Heap → Nat → Option Nat → Heap × Bool
  | 0, h, _, _ => (h, false)
  | fuel + 1, h, a, obsArg =>
      match getObj h a with
      | none => (h, true)
      | some obj =>
          let step := fun (acc : Heap × Bool) (k : String) =>
            match getObj acc.1 a with
            | none => acc
            | some cur =>
                match cur.props.find? (fun p => p.1 == k) with
                | none => acc
                | some kp =>
                    let v := propValue acc.1 kp.2
                    match v with
                    | .fn =>
                        let alloc := newObservable acc.1 .undef
                        (installAccessor alloc.1 a k alloc.2, acc.2)
                    | .ref b =>
                        let alloc := newObservable acc.1 v
                        let rec1 := observeObject fuel alloc.1 b (some alloc.2)
                        (installAccessor rec1.1 a k alloc.2, acc.2 && rec1.2)
                    | _ =>
                        let alloc := newObservable acc.1 v
                        (installAccessor alloc.1 a k alloc.2, acc.2)
          let done := (obj.props.map (fun p => p.1)).foldl step (h, true)
          if obj.kind = .arr then
            if obj.attachedDefined then done
            else
              (mapObj done.1 a (fun o =>
                { o with attachedDefined := true, attachedObs := obsArg, augmented := true }),
               done.2)
          else
            (mapObj done.1 a (fun o => { o with objSealed := true }), done.2)

/-- `observe` of `observer.ts`: reject anything that is not a plain
JavaScript object with the `InvalidInput` error, otherwise process the
object in place and return it (`return data`) — the very same reference
that was passed in. -/
def observe (fuel : Nat) (h : Heap) (a : Nat) : Except Unit (Heap × Nat × Bool) :=
  match getObj h a with
  | some obj =>
      if obj.kind = .plain then
        let p := observeObject fuel h a none
        .ok (p.1, a, p.2)
      else .error ()
  | none => .error ()

/-- Every enumerable own property of the object at `a` is an intercepted
accessor. -/
def allAccessors (h : Heap) (a : Nat) : Bool :=
  match getObj h a with
  | some o => o.props.all (fun p => match p.2 with | .accessor _ => true | .data _ => false)
  | none => false


/-- One key-processing step of `observeObject` (the body of the
`keys.forEach` loop), factored out so the structural lemmas can speak
about the fold. -/
def obsStep (fuel : Nat) (a : Nat) (acc : Heap × Bool) (k : String) : Heap × Bool :=
  match getObj acc.1 a with
  | none => acc
  | some cur =>
      match cur.props.find? (fun p => p.1 == k) with
      | none => acc
      | some kp =>
          let v := propValue acc.1 kp.2
          match v with
          | .fn =>
              let alloc := newObservable acc.1 .undef
              (installAccessor alloc.1 a k alloc.2, acc.2)
          | .ref b =>
              let alloc := newObservable acc.1 v
              let rec1 := observeObject fuel alloc.1 b (some alloc.2)
              (installAccessor rec1.1 a k alloc.2, acc.2 && rec1.2)
          | _ =>
              let alloc := newObservable acc.1 v
              (installAccessor alloc.1 a k alloc.2, acc.2)

/-- Whether a property has been replaced by an intercepted accessor. -/
def isAcc : HProp → Bool
  | .accessor _ => true
  | .data _ => false

/-- Every enumerable own property at key `k` of the object at `a` is an
intercepted accessor (vacuously true when the key is absent). -/
def keyAcc (h : Heap) (a : Nat) (k : String) : Bool :=
  match getObj h a with
  | some o => o.props.all (fun p => p.1 != k || isAcc p.2)
  | none => false

/-- The heap-shape facts preserved by every operation `observeObject`
performs: object kinds are stable, property key lists are stable, the
sealed flag of an array is stable, and a key all of whose properties are
already intercepted accessors stays that way. -/
structure HEvolves (h h2 : Heap) : Prop where
  kinds : ∀ b, (getObj h2 b).map (fun o => o.kind) = (getObj h b).map (fun o => o.kind)
  keys : ∀ b, (getObj h2 b).map (fun o => o.props.map (fun p => p.1)) =
    (getObj h b).map (fun o => o.props.map (fun p => p.1))
  arrSeal : ∀ b o o2, getObj h b = some o → getObj h2 b = some o2 → o.kind = .arr →
    o2.objSealed = o.objSealed
  accMono : ∀ b k, keyAcc h b k = true → keyAcc h2 b k = true

end FissionHeap

namespace Fission

/-- The kind of a reactive property with its value and observer list
erased: computed body (if any) and watcher list.  `Observable.update`
never changes this part of a field. -/
def Field.shape : Field → Option CExpr × List Nat
  | .scalar o => (none, o.watchers)
  | .computed e o => (some e, o.watchers)

/-- Every engine-state component other than observable values, observer
lists, and the three event logs.  The update cascade changes none of
these. -/
def frame (st : EngineState) :
    ReactivityState × Option String × List QItem × List (String × SrcVal) × Bool ×
      List Val × List (Int × ObsCore) × List Int × List (Nat × List Val) × List QItem ×
      List (String × (Option CExpr × List Nat)) × List Nat :=
  (st.reactivityState, st.marker, st.queue, st.raw, st.objSealed, st.arrItems,
   st.arrElemObs, st.obsCalls, st.callLog, st.replayLog,
   st.fields.map (fun p => (p.1, p.2.shape)), st.arrObs.watchers)

/-- The observer (dependent-computed) lists of every observable in the
state.  These change only while the evaluation marker is set. -/
def observerLists (st : EngineState) : List (String × List String) × List String :=
  (st.fields.map (fun p => (p.1, p.2.core.observers)), st.arrObs.observers)

/-- Key `k` appears in no observer list: true of every scalar field in any
state the engine can build, because `Observable.observe` is only ever
passed `currentEvaluatingObservable`, which is always a computed. -/
def KNotObserver (st : EngineState) (k : String) : Prop :=
  (∀ p ∈ st.fields, k ∉ (Field.core p.2).observers) ∧ k ∉ st.arrObs.observers

/-- The swallowed errors produced by one watcher notification loop. -/
def watcherErrs (wenv : Nat → JVal → JVal → Bool) (ws : List Nat) (v oldV : JVal) :
    List ErrEvent :=
  (ws.filter (fun w => wenv w v oldV)).map (fun w => .watcherFailed w)

/-- How many times watcher `w` has been invoked by the observable backing
field `k`. -/
def notifyCount (st : EngineState) (k : String) (w : Nat) : Nat :=
  (st.log.filter (fun e => e.ref == ObsRef.fld k && e.watcher == w)).length

/-- A minimal engine state: the given reactivity state, no marker, empty
queue, the given raw object not yet observed, and the given array
contents whose attached observable is watched by watcher id 7. -/
def initState (m : ReactivityState) (raw : List (String × SrcVal)) (items : List Val) :
    EngineState :=
  { reactivityState := m, marker := none, queue := [], raw := raw, fields := [],
    objSealed := false, arrItems := items,
    arrObs := ⟨.arrv items, [7], []⟩, arrElemObs := [], obsCalls := [],
    log := [], errLog := [], callLog := [], replayLog := [] }

/-- The data object of the specification example:
`{price: 10, qty: 2, total(){return this.price*this.qty}}`. -/
def priceQtyRaw : List (String × SrcVal) :=
  [("price", .val (.num 10)), ("qty", .val (.num 2)),
   ("total", .fn (.mul (.field "price") (.field "qty")))]

/-- A watcher environment in which no watcher throws. -/
def noThrow : Nat → JVal → JVal → Bool := fun _ _ _ => false

/-- Whether a computed body throws when run (the `mul` operator is strict
in both arguments, so a `throwE` anywhere in the tree is reached). -/
def hasThrow : CExpr → Bool
  | .lit _ => false
  | .field _ => false
  | .mul a b => hasThrow a || hasThrow b
  | .throwE => true

/-- All the engine-state components that the update cascade
(`Observable.update` and everything it calls) leaves untouched while no
evaluation marker is set: everything except observable values and the
event logs. -/
structure Preserves (st st2 : EngineState) : Prop where
  mode : st2.reactivityState = st.reactivityState
  marker : st2.marker = st.marker
  queue : st2.queue = st.queue
  raw : st2.raw = st.raw
  sealedFlag : st2.objSealed = st.objSealed
  arrItems : st2.arrItems = st.arrItems
  arrElemObs : st2.arrElemObs = st.arrElemObs
  obsCalls : st2.obsCalls = st.obsCalls
  callLog : st2.callLog = st.callLog
  replayLog : st2.replayLog = st.replayLog
  fieldsShape : st2.fields.map (fun p => (p.1, Field.shape p.2)) =
    st.fields.map (fun p => (p.1, Field.shape p.2))
  arrWatchers : st2.arrObs.watchers = st.arrObs.watchers
  obsLists : observerLists st2 = observerLists st

/-- All the fields of `KNotObserver`-style invariance needed along the
cascade, relative to a base state. -/
def UntouchedInv (q : NotifyEntry → Bool) (st : EngineState) (k : String)
    (s : EngineState) : Prop :=
  s.log.filter q = st.log.filter q ∧ lookupField s k = lookupField st k ∧
    s.marker = none ∧ KNotObserver s k

/-- The invariant carried along the dependent cascade of a write to field
`k` itself: the filtered log already contains the watcher entries of `k`,
field `k` holds the written value, and the marker/freeness side conditions
persist. -/
def SelfInv (q : NotifyEntry → Bool) (st : EngineState) (k : String)
    (L : List NotifyEntry) (f : Field) (s : EngineState) : Prop :=
  s.log.filter q = st.log.filter q ++ L ∧ lookupField s k = some f ∧
    s.marker = none ∧ KNotObserver s k

/-- C1: observing `{price: 10, qty: 2, total(){return this.price*this.qty}}`
yields a state in which reading the computed field `total` gives `20`,
and after assigning `price = 5` under `Enabled` mode, reading `total`
gives `10` — the dependent computed is recomputed synchronously by the
write's cascade. -/
theorem claim1_computed_total_cascade :
    (readField (observeObject (initState .Enabled priceQtyRaw [])) "total").2 =
      .sc (.num 20) ∧
    (readField
        (setField noThrow 4 (observeObject (initState .Enabled priceQtyRaw [])) "price"
          (.num 5)).1 "total").2 = .sc (.num 10) := by
  constructor
  · rfl
  · rfl

/-- `setReactivityState` always leaves the requested state in place (the
inequality guard only skips a redundant write). -/
theorem setRState_eq (st : EngineState) (s : ReactivityState) :
    setRState st s = { st with reactivityState := s } := by
  unfold setRState
  split
  · rfl
  · rename_i h
    have hs : s = st.reactivityState := by
      by_contra hc
      exact h hc
    rw [hs]

/-- Fold invariance: a property preserved by each step is preserved by the
whole fold. -/
theorem foldl_invariant {α β : Type _} (f : β → α → β) (P : β → Prop)
    (h : ∀ b a, P b → P (f b a)) : ∀ (l : List α) (b : β), P b → P (l.foldl f b) := by
  intro l
  induction l with
  | nil => intro b hb; exact hb
  | cons x xs ih => intro b hb; exact ih _ (h b x hb)

/-- Closed form of the watcher loop of `Observable.update`: every watcher
is invoked exactly once, in registration order, with `(value, oldValue)`,
and each throwing watcher contributes one logged error — regardless of
which watchers throw. -/
theorem notifyWatchers_eq (wenv : Nat → JVal → JVal → Bool) (ref : ObsRef) (v oldV : JVal) :
    ∀ (ws : List Nat) (st : EngineState),
      notifyWatchers wenv st ref ws v oldV =
        { st with log := st.log ++ ws.map (fun w => ⟨ref, w, v, oldV⟩),
                  errLog := st.errLog ++ watcherErrs wenv ws v oldV } := by
  intro ws
  induction ws with
  | nil => intro st; simp [notifyWatchers, watcherErrs]
  | cons w ws ih =>
      intro st
      show notifyWatchers wenv _ ref ws v oldV = _
      rw [ih]
      by_cases hw : wenv w v oldV <;>
        simp [hw, watcherErrs, List.filter_cons]

/-- `Preserves` is reflexive. -/
theorem Preserves.refl (st : EngineState) : Preserves st st :=
  ⟨rfl, rfl, rfl, rfl, rfl, rfl, rfl, rfl, rfl, rfl, rfl, rfl, rfl⟩

/-- `Preserves` is transitive. -/
theorem Preserves.compose {a b c : EngineState} (h1 : Preserves a b) (h2 : Preserves b c) :
    Preserves a c :=
  ⟨h2.mode.trans h1.mode, h2.marker.trans h1.marker, h2.queue.trans h1.queue,
   h2.raw.trans h1.raw, h2.sealedFlag.trans h1.sealedFlag, h2.arrItems.trans h1.arrItems,
   h2.arrElemObs.trans h1.arrElemObs, h2.obsCalls.trans h1.obsCalls,
   h2.callLog.trans h1.callLog, h2.replayLog.trans h1.replayLog,
   h2.fieldsShape.trans h1.fieldsShape, h2.arrWatchers.trans h1.arrWatchers,
   h2.obsLists.trans h1.obsLists⟩

/-- Appending to the two event logs preserves everything else. -/
theorem Preserves.logs (st : EngineState) (L : List NotifyEntry) (E : List ErrEvent) :
    Preserves st { st with log := L, errLog := E } :=
  ⟨rfl, rfl, rfl, rfl, rfl, rfl, rfl, rfl, rfl, rfl, rfl, rfl, rfl⟩

/-- Mapping a projection over a pointwise-projection-preserving rewrite
changes nothing. -/
theorem map_proj_const {α γ : Type _} (u : α → α) (proj : α → γ) (h : ∀ a, proj (u a) = proj a) :
    ∀ l : List α, (l.map u).map proj = l.map proj := by
  intro l
  induction l with
  | nil => rfl
  | cons x xs ih => simp [ih, h x]

/-- A field rewrite that keeps the shape and the observer list of the
rewritten field preserves the frame. -/
theorem mapField_preserves (st : EngineState) (k : String) (g : Field → Field)
    (hg : ∀ f, Field.shape (g f) = Field.shape f ∧ (g f).core.observers = f.core.observers) :
    Preserves st (mapField st k g) := by
  refine ⟨rfl, rfl, rfl, rfl, rfl, rfl, rfl, rfl, rfl, rfl, ?_, rfl, ?_⟩
  · show (st.fields.map fun p => if p.1 == k then (p.1, g p.2) else p).map _ = _
    apply map_proj_const
    intro a
    by_cases hk : a.1 == k <;> simp [hk, (hg a.2).1]
  · show (((st.fields.map fun p => if p.1 == k then (p.1, g p.2) else p).map
        fun p => (p.1, (Field.core p.2).observers)), st.arrObs.observers) = _
    unfold observerLists
    refine congrArg (fun l => (l, st.arrObs.observers)) ?_
    apply map_proj_const
    intro a
    by_cases hk : a.1 == k <;> simp [hk, (hg a.2).2]

/-- Storing a value into an observable preserves the frame. -/
theorem setObsValue_preserves (st : EngineState) (ref : ObsRef) (v : JVal) :
    Preserves st (setObsValue st ref v) := by
  cases ref with
  | fld k =>
      exact mapField_preserves st k (fun f => f.withCore { f.core with value := v })
        (fun f => by cases f <;> exact ⟨rfl, rfl⟩)
  | arr => exact ⟨rfl, rfl, rfl, rfl, rfl, rfl, rfl, rfl, rfl, rfl, rfl, rfl, rfl⟩

/-- The watcher loop preserves the frame. -/
theorem notifyWatchers_preserves (wenv : Nat → JVal → JVal → Bool) (st : EngineState)
    (ref : ObsRef) (ws : List Nat) (v oldV : JVal) :
    Preserves st (notifyWatchers wenv st ref ws v oldV) := by
  rw [notifyWatchers_eq]
  exact Preserves.logs st _ _

/-- `evaluate` with no marker set either leaves the state unchanged or
only appends the logged computed failure; in both cases the saved
reactivity state is restored by the `finally` block. -/
theorem evalGuarded_state (st : EngineState) (e : CExpr) (h : st.marker = none) :
    (evalGuarded st e).1 = st ∨
      (evalGuarded st e).1 = { st with errLog := st.errLog ++ [.computedFailed] } := by
  have h1 : (setRState st ReactivityState.Disabled).marker = none := by
    rw [setRState_eq]
    exact h
  unfold evalGuarded
  rcases hI : interp (setRState st ReactivityState.Disabled) e with ⟨st2, r⟩
  have e2 : st2 = setRState st .Disabled := by
    have hx := interp_marker_none e _ h1
    rw [hI] at hx
    exact hx
  subst e2
  cases r with
  | ok v =>
      left
      simp [setRState_eq]
  | error u =>
      right
      simp [setRState_eq]

/-- `this._observers[i].evaluate()` with no marker set either leaves the
state unchanged or only appends the logged computed failure. -/
theorem evaluateComp_state (st : EngineState) (c : String) (h : st.marker = none) :
    (evaluateComp st c).1 = st ∨
      (evaluateComp st c).1 = { st with errLog := st.errLog ++ [.computedFailed] } := by
  unfold evaluateComp
  split
  · rename_i e o heq
    exact evalGuarded_state st e h
  · left
    rfl

/-- Evaluating a dependent computed with no marker set preserves the
frame. -/
theorem evaluateComp_preserves (st : EngineState) (c : String) (h : st.marker = none) :
    Preserves st (evaluateComp st c).1 := by
  rcases evaluateComp_state st c h with he | he
  · rw [he]; exact Preserves.refl st
  · rw [he]; exact Preserves.logs st _ _

/-- `Observable.update` with no marker set changes only observable values
and the event logs. -/
theorem updateObs_preserves (wenv : Nat → JVal → JVal → Bool) :
    ∀ (fuel : Nat) (st : EngineState) (ref : ObsRef) (v : JVal), st.marker = none →
      Preserves st (updateObs wenv fuel st ref v) := by
  intro fuel
  induction fuel with
  | zero => intro st ref v h; exact Preserves.refl st
  | succ n ih =>
      intro st ref v h
      unfold updateObs
      cases hq : getObs st ref with
      | none => exact Preserves.refl st
      | some core =>
          have h1 := setObsValue_preserves st ref v
          have h2 := notifyWatchers_preserves wenv (setObsValue st ref v) ref core.watchers v
            core.value
          refine foldl_invariant _ (fun s => Preserves st s) ?_ core.observers _
            (h1.compose h2)
          intro s c hs
          have hm : s.marker = none := hs.marker.trans h
          have h3 := evaluateComp_preserves s c hm
          have hm2 : (evaluateComp s c).1.marker = none := h3.marker.trans hm
          exact hs.compose (h3.compose (ih (evaluateComp s c).1 (.fld c) (evaluateComp s c).2 hm2))

/-- A value write never touches the invocation log. -/
theorem setObsValue_log (st : EngineState) (ref : ObsRef) (v : JVal) :
    (setObsValue st ref v).log = st.log := by
  cases ref <;> rfl

/-- Observer-list equality transports the freeness of a key. -/
theorem KNotObserver_transport {st st2 : EngineState} {k : String}
    (h : observerLists st2 = observerLists st) (hk : KNotObserver st k) : KNotObserver st2 k := by
  have h1 : st2.fields.map (fun p => (p.1, (Field.core p.2).observers)) =
      st.fields.map (fun p => (p.1, (Field.core p.2).observers)) := congrArg Prod.fst h
  have h2 : st2.arrObs.observers = st.arrObs.observers := congrArg Prod.snd h
  constructor
  · intro p hp
    have hmem : (p.1, (Field.core p.2).observers) ∈
        st2.fields.map (fun r => (r.1, (Field.core r.2).observers)) :=
      List.mem_map_of_mem _ hp
    rw [h1] at hmem
    obtain ⟨r, hr, he⟩ := List.mem_map.mp hmem
    have hobs : (Field.core r.2).observers = (Field.core p.2).observers := congrArg Prod.snd he
    rw [← hobs]
    exact hk.1 r hr
  · rw [h2]
    exact hk.2

/-- An update of an observable other than field `k`'s, with no marker set
and `k` in no observer list, logs no entry attributed to field `k` and
leaves field `k` untouched (for any entry predicate `q` that only accepts
entries attributed to field `k`). -/
theorem updateObs_untouched (wenv : Nat → JVal → JVal → Bool) (k : String)
    (q : NotifyEntry → Bool) (hq : ∀ ent, q ent = true → ent.ref = .fld k) :
    ∀ (fuel : Nat) (st : EngineState) (ref : ObsRef) (v : JVal),
      st.marker = none → KNotObserver st k → ref ≠ .fld k →
        (updateObs wenv fuel st ref v).log.filter q = st.log.filter q ∧
        lookupField (updateObs wenv fuel st ref v) k = lookupField st k := by
  intro fuel
  induction fuel with
  | zero => intro st ref v _ _ _; exact ⟨rfl, rfl⟩
  | succ n ih =>
      intro st ref v h hK hr
      unfold updateObs
      cases hg : getObs st ref with
      | none => exact ⟨rfl, rfl⟩
      | some core =>
          have hobs : ∀ c ∈ core.observers, c ≠ k := by
            cases ref with
            | arr =>
                have hga : some st.arrObs = some core := hg
                have hcore := Option.some.inj hga
                intro c hc hck
                subst hck
                exact hK.2 (hcore ▸ hc)
            | fld k2 =>
                have hg2 : Option.map Field.core (lookupField st k2) = some core := hg
                cases hlf : lookupField st k2 with
                | none => rw [hlf] at hg2; cases hg2
                | some f =>
                    rw [hlf] at hg2
                    have hcore : Field.core f = core := by
                      simpa using hg2
                    have hmem := lookupField_mem hlf
                    intro c hc hck
                    subst hck
                    exact hK.1 (k2, f) hmem (hcore ▸ hc)
          have hbase : UntouchedInv q st k
              (notifyWatchers wenv (setObsValue st ref v) ref core.watchers v core.value) := by
            rw [notifyWatchers_eq]
            have hsp := setObsValue_preserves st ref v
            refine ⟨?_, ?_, ?_, ?_⟩
            · show ((setObsValue st ref v).log ++ _).filter q = _
              rw [List.filter_append, setObsValue_log]
              have hnil : (core.watchers.map
                  (fun w => (⟨ref, w, v, core.value⟩ : NotifyEntry))).filter q = [] := by
                apply filter_none_of
                intro a ha
                obtain ⟨w, hw, hae⟩ := List.mem_map.mp ha
                by_contra hqe
                have hqt : q a = true := by
                  cases hqa : q a
                  · exact absurd hqa hqe
                  · rfl
                have := hq a hqt
                rw [← hae] at this
                exact hr this
              rw [hnil, List.append_nil]
            · show lookupField (setObsValue st ref v) k = _
              exact lookupField_setObsValue_ne st ref v k hr
            · show (setObsValue st ref v).marker = none
              exact hsp.marker.trans h
            · exact KNotObserver_transport hsp.obsLists hK
          have hstep : ∀ s c, c ∈ core.observers → UntouchedInv q st k s →
              UntouchedInv q st k
                (updateObs wenv n (evaluateComp s c).1 (.fld c) (evaluateComp s c).2) := by
            intro s c hc hs
            obtain ⟨hs1, hs2, hs3, hs4⟩ := hs
            have hmid : UntouchedInv q st k (evaluateComp s c).1 := by
              rcases evaluateComp_state s c hs3 with he | he <;> rw [he]
              · exact ⟨hs1, hs2, hs3, hs4⟩
              · exact ⟨hs1, hs2, hs3, hs4⟩
            obtain ⟨hm1, hm2, hm3, hm4⟩ := hmid
            have hne : (ObsRef.fld c) ≠ .fld k := by
              intro hcc
              exact hobs c hc (by injection hcc)
            have hrec := ih (evaluateComp s c).1 (.fld c) (evaluateComp s c).2 hm3 hm4 hne
            have hpres := updateObs_preserves wenv n (evaluateComp s c).1 (.fld c)
              (evaluateComp s c).2 hm3
            exact ⟨hrec.1.trans hm1, hrec.2.trans hm2, hpres.marker.trans hm3,
              KNotObserver_transport hpres.obsLists hm4⟩
          have hP := foldl_invariant_mem _ (UntouchedInv q st k) core.observers hstep _ hbase
          exact ⟨hP.1, hP.2.1⟩


/-- `Observable.update` on field `k`'s own observable: the stored value
becomes the new value, each registered watcher of `k` is invoked exactly
once, in order, with `(value, oldValue)`, and the dependent cascade
contributes no further entry attributed to field `k`. -/
theorem updateObs_fld_self (wenv : Nat → JVal → JVal → Bool) (k : String)
    (q : NotifyEntry → Bool) (hq : ∀ ent, q ent = true → ent.ref = .fld k)
    (fuel : Nat) (st : EngineState) (v : JVal) (f : Field)
    (h : st.marker = none) (hK : KNotObserver st k)
    (hf : lookupField st k = some f) :
    (updateObs wenv (fuel + 1) st (.fld k) v).log.filter q =
      st.log.filter q ++
        ((Field.core f).watchers.map
          (fun w => (⟨.fld k, w, v, (Field.core f).value⟩ : NotifyEntry))).filter q ∧
    lookupField (updateObs wenv (fuel + 1) st (.fld k) v) k =
      some (f.withCore { f.core with value := v }) := by
  have hg : getObs st (.fld k) = some (Field.core f) := by
    show Option.map Field.core (lookupField st k) = some (Field.core f)
    rw [hf]
    rfl
  have hkobs : ∀ c ∈ (Field.core f).observers, c ≠ k := by
    intro c hc hck
    exact hK.1 (k, f) (lookupField_mem hf) (hck ▸ hc)
  have hsp := setObsValue_preserves st (.fld k) v
  have hbase : SelfInv q st k
      (((Field.core f).watchers.map (fun w => (⟨.fld k, w, v, (Field.core f).value⟩ : NotifyEntry))).filter q)
      (f.withCore { f.core with value := v })
      (notifyWatchers wenv (setObsValue st (.fld k) v) (.fld k) (Field.core f).watchers v (Field.core f).value) := by
    rw [notifyWatchers_eq]
    refine ⟨?_, ?_, ?_, ?_⟩
    · show ((setObsValue st (.fld k) v).log ++ _).filter q = _
      rw [List.filter_append, setObsValue_log]
    · show lookupField (setObsValue st (.fld k) v) k = _
      rw [lookupField_setObsValue_self, hf]
      rfl
    · show (setObsValue st (.fld k) v).marker = none
      exact hsp.marker.trans h
    · exact KNotObserver_transport hsp.obsLists hK
  have hstep : ∀ s c, c ∈ (Field.core f).observers →
      SelfInv q st k
        (((Field.core f).watchers.map (fun w => (⟨.fld k, w, v, (Field.core f).value⟩ : NotifyEntry))).filter q)
        (f.withCore { f.core with value := v }) s →
      SelfInv q st k
        (((Field.core f).watchers.map (fun w => (⟨.fld k, w, v, (Field.core f).value⟩ : NotifyEntry))).filter q)
        (f.withCore { f.core with value := v })
        (updateObs wenv fuel (evaluateComp s c).1 (.fld c) (evaluateComp s c).2) := by
    intro s c hc hs
    obtain ⟨hs1, hs2, hs3, hs4⟩ := hs
    have hmid : SelfInv q st k
        (((Field.core f).watchers.map (fun w => (⟨.fld k, w, v, (Field.core f).value⟩ : NotifyEntry))).filter q)
        (f.withCore { f.core with value := v }) (evaluateComp s c).1 := by
      rcases evaluateComp_state s c hs3 with he | he <;> rw [he]
      · exact ⟨hs1, hs2, hs3, hs4⟩
      · exact ⟨hs1, hs2, hs3, hs4⟩
    obtain ⟨hm1, hm2, hm3, hm4⟩ := hmid
    have hne : (ObsRef.fld c) ≠ .fld k := by
      intro hcc
      exact hkobs c hc (by injection hcc)
    have hrec := updateObs_untouched wenv k q hq fuel (evaluateComp s c).1 (.fld c)
      (evaluateComp s c).2 hm3 hm4 hne
    have hpres := updateObs_preserves wenv fuel (evaluateComp s c).1 (.fld c)
      (evaluateComp s c).2 hm3
    exact ⟨hrec.1.trans hm1, hrec.2.trans hm2, hpres.marker.trans hm3,
      KNotObserver_transport hpres.obsLists hm4⟩
  have hP := foldl_invariant_mem _
    (SelfInv q st k
      (((Field.core f).watchers.map (fun w => (⟨.fld k, w, v, (Field.core f).value⟩ : NotifyEntry))).filter q)
      (f.withCore { f.core with value := v }))
    (Field.core f).observers hstep _ hbase
  simp only [updateObs]
  rw [hg]
  exact ⟨hP.1, hP.2.1⟩


/-- Counting watcher-`w` entries among the notifications of one watcher
loop gives the number of registrations of `w`. -/
theorem filter_watcher_len (k : String) (w : Nat) (v oldV : JVal) :
    ∀ ws : List Nat,
      ((ws.map (fun x => (⟨.fld k, x, v, oldV⟩ : NotifyEntry))).filter
        (fun e => e.ref == ObsRef.fld k && e.watcher == w)).length = ws.count w := by
  intro ws
  induction ws with
  | nil => rfl
  | cons x xs ih =>
      by_cases hx : x = w <;>
        simp [List.filter_cons, List.count_cons, hx, ih]

/-- C7: for an intercepted scalar field under `Enabled` mode with a
watcher `w` registered exactly once, and values `v1 ≠ v2` with `v1`
different from the stored value: writing `v1` and then `v1` again invokes
`w` exactly once — the second, equal-valued write is a no-op that changes
nothing at all — while writing `v1` and then `v2` invokes `w` exactly
twice. -/
theorem claim7_watcher_notification_counts (wenv : Nat → JVal → JVal → Bool)
    (st : EngineState) (k : String) (w : Nat) (core : ObsCore) (v1 v2 : Val) (fuel : Nat)
    (hmode : st.reactivityState = .Enabled)
    (hmark : st.marker = none)
    (hK : KNotObserver st k)
    (hf : lookupField st k = some (.scalar core))
    (hw : core.watchers.count w = 1)
    (hne0 : core.value ≠ .sc v1) (hne12 : v1 ≠ v2) :
    (setField wenv (fuel + 1) (setField wenv (fuel + 1) st k v1).1 k v1).1 =
        (setField wenv (fuel + 1) st k v1).1 ∧
    notifyCount (setField wenv (fuel + 1) (setField wenv (fuel + 1) st k v1).1 k v1).1 k w =
      notifyCount st k w + 1 ∧
    notifyCount (setField wenv (fuel + 1) (setField wenv (fuel + 1) st k v1).1 k v2).1 k w =
      notifyCount st k w + 2 := by
  have hq : ∀ ent : NotifyEntry,
      (ent.ref == ObsRef.fld k && ent.watcher == w) = true → ent.ref = .fld k := by
    intro ent hent
    have := (Bool.and_eq_true _ _).mp hent
    exact beq_iff_eq.mp this.1
  have hset1 : setField wenv (fuel + 1) st k v1 =
      (updateObs wenv (fuel + 1) st (.fld k) (.sc v1), .ok ()) := by
    unfold setField
    rw [hf, hmode]
    dsimp only
    rw [if_pos hne0]
  have hupd := updateObs_fld_self wenv k _ hq fuel st (.sc v1) (.scalar core) hmark hK hf
  simp only [Field.core, Field.withCore] at hupd
  have hpres1 := updateObs_preserves wenv (fuel + 1) st (.fld k) (.sc v1) hmark
  rw [hset1]
  have hcount1 : notifyCount (updateObs wenv (fuel + 1) st (.fld k) (.sc v1)) k w =
      notifyCount st k w + 1 := by
    unfold notifyCount
    rw [hupd.1, List.length_append, filter_watcher_len, hw]
  have hmode1 : (updateObs wenv (fuel + 1) st (.fld k) (.sc v1)).reactivityState =
      .Enabled := hpres1.mode.trans hmode
  have hmark1 : (updateObs wenv (fuel + 1) st (.fld k) (.sc v1)).marker = none :=
    hpres1.marker.trans hmark
  have hK1 : KNotObserver (updateObs wenv (fuel + 1) st (.fld k) (.sc v1)) k :=
    KNotObserver_transport hpres1.obsLists hK
  have hf1 := hupd.2
  refine ⟨?_, ?_, ?_⟩
  · show (setField wenv (fuel + 1) (updateObs wenv (fuel + 1) st (.fld k) (.sc v1)) k v1).1 = _
    unfold setField
    rw [hf1, hmode1]
    dsimp only
    rw [if_neg (show ¬ (JVal.sc v1 ≠ JVal.sc v1) from fun hc => hc rfl)]
  · show notifyCount (setField wenv (fuel + 1)
        (updateObs wenv (fuel + 1) st (.fld k) (.sc v1)) k v1).1 k w = _
    unfold setField
    rw [hf1, hmode1]
    dsimp only
    rw [if_neg (show ¬ (JVal.sc v1 ≠ JVal.sc v1) from fun hc => hc rfl)]
    exact hcount1
  · show notifyCount (setField wenv (fuel + 1)
        (updateObs wenv (fuel + 1) st (.fld k) (.sc v1)) k v2).1 k w = _
    have hne1 : JVal.sc v1 ≠ JVal.sc v2 := by
      intro hc
      apply hne12
      injection hc
    unfold setField
    rw [hf1, hmode1]
    dsimp only
    rw [if_pos hne1]
    have hupd2 := updateObs_fld_self wenv k _ hq fuel
      (updateObs wenv (fuel + 1) st (.fld k) (.sc v1)) (.sc v2)
      (.scalar { core with value := .sc v1 }) hmark1 hK1 hf1
    unfold notifyCount
    rw [hupd2.1, List.length_append, filter_watcher_len]
    show (List.filter _ (updateObs wenv (fuel + 1) st (.fld k) (.sc v1)).log).length +
        ({ core with value := JVal.sc v1 } : ObsCore).watchers.count w = _
    have hcw : ({ core with value := JVal.sc v1 } : ObsCore).watchers.count w = 1 := hw
    rw [hcw]
    have := hcount1
    unfold notifyCount at this
    rw [this]


/-- C7 witness: a state with one scalar field `price` holding `0`, watched
by watcher 5; writing `1` then `1` notifies once, writing `1` then `2`
notifies twice. -/
theorem claim7_watcher_notification_counts_witness :
    notifyCount (setField noThrow 4 (setField noThrow 4
        { initState .Enabled [] [] with
            fields := [("price", .scalar ⟨.sc (.num 0), [5], []⟩)] } "price" (.num 1)).1
        "price" (.num 1)).1 "price" 5 =
      notifyCount { initState .Enabled [] [] with
          fields := [("price", .scalar ⟨.sc (.num 0), [5], []⟩)] } "price" 5 + 1 ∧
    notifyCount (setField noThrow 4 (setField noThrow 4
        { initState .Enabled [] [] with
            fields := [("price", .scalar ⟨.sc (.num 0), [5], []⟩)] } "price" (.num 1)).1
        "price" (.num 2)).1 "price" 5 =
      notifyCount { initState .Enabled [] [] with
          fields := [("price", .scalar ⟨.sc (.num 0), [5], []⟩)] } "price" 5 + 2 := by
  have h := claim7_watcher_notification_counts noThrow
    { initState .Enabled [] [] with fields := [("price", .scalar ⟨.sc (.num 0), [5], []⟩)] }
    "price" 5 ⟨.sc (.num 0), [5], []⟩ (.num 1) (.num 2) 3 rfl rfl
    (by constructor
        · intro p hp
          simp at hp
          rw [hp]
          simp [Field.core]
        · simp [initState])
    rfl (by decide) (by decide) (by decide)
  exact ⟨h.2.1, h.2.2⟩

/-- C5: while the reactivity state is `Disabled`, a write to an
intercepted scalar field and every wrapped array operation throw the
`MutationDisabled` error, and the failed operation is atomic: the
resulting state is exactly the original one — stored values, array
contents, the deferred queue and both logs are unchanged, so no watcher
or dependent computed is notified. -/
theorem claim5_disabled_mutation_atomicity (wenv : Nat → JVal → JVal → Bool) (fuel : Nat)
    (st : EngineState) (k : String) (core : ObsCore)
    (hmode : st.reactivityState = .Disabled)
    (hf : lookupField st k = some (.scalar core)) :
    (∀ v, setField wenv fuel st k v = (st, .error .mutationDisabled)) ∧
    (∀ m args, mutator wenv fuel st m args = (st, .error .mutationDisabled)) := by
  constructor
  · intro v
    unfold setField
    rw [hf, hmode]
  · intro m args
    unfold mutator
    rw [hmode]

/-- C5 witness: a Disabled-mode state with a scalar field `price`; the
write and a `push` both fail atomically. -/
theorem claim5_disabled_mutation_atomicity_witness :
    setField noThrow 4
        { initState .Disabled [] [.num 1] with
            fields := [("price", .scalar ⟨.sc (.num 0), [], []⟩)] } "price" (.num 9) =
      ({ initState .Disabled [] [.num 1] with
          fields := [("price", .scalar ⟨.sc (.num 0), [], []⟩)] },
        .error .mutationDisabled) ∧
    mutator noThrow 4
        { initState .Disabled [] [.num 1] with
            fields := [("price", .scalar ⟨.sc (.num 0), [], []⟩)] } .push [.num 7] =
      ({ initState .Disabled [] [.num 1] with
          fields := [("price", .scalar ⟨.sc (.num 0), [], []⟩)] },
        .error .mutationDisabled) := by
  have h := claim5_disabled_mutation_atomicity noThrow 4
    { initState .Disabled [] [.num 1] with
        fields := [("price", .scalar ⟨.sc (.num 0), [], []⟩)] }
    "price" ⟨.sc (.num 0), [], []⟩ rfl rfl
  exact ⟨h.1 (.num 9), h.2 .push [.num 7]⟩

/-- C10: while the reactivity state is `Lazy`, every wrapped array
mutator returns `undefined` — the call is enqueued verbatim instead —
whereas the same call under `Enabled` returns the native method's
result. -/
theorem claim10_lazy_mutator_returns_undefined (wenv : Nat → JVal → JVal → Bool) (fuel : Nat)
    (st : EngineState) (m : AMethod) (args : List Val)
    (hmode : st.reactivityState = .Lazy) :
    mutator wenv fuel st m args =
      ({ st with queue := st.queue ++ [.arrayMut m args] }, .ok (.sc .undef)) ∧
    (mutator wenv fuel { st with reactivityState := .Enabled } m args).2 =
      .ok (nativeApply st.arrItems m args).2 := by
  constructor
  · unfold mutator
    rw [hmode]
  · rfl

/-- C10 witness: under Lazy, `pop` on `[1, 2]` returns `undefined` and is
queued; under Enabled the same `pop` returns the removed element `2`. -/
theorem claim10_lazy_mutator_returns_undefined_witness :
    mutator noThrow 4 (initState .Lazy [] [.num 1, .num 2]) .pop [] =
      ({ initState .Lazy [] [.num 1, .num 2] with queue := [.arrayMut .pop []] },
        .ok (.sc .undef)) ∧
    (mutator noThrow 4 { initState .Lazy [] [.num 1, .num 2] with
        reactivityState := .Enabled } .pop []).2 = .ok (.sc (.num 2)) := by
  have h := claim10_lazy_mutator_returns_undefined noThrow 4
    (initState .Lazy [] [.num 1, .num 2]) .pop [] rfl
  exact ⟨h.1, h.2⟩


/-- A body containing `throwE` always raises when run. -/
theorem interp_hasThrow (e : CExpr) (he : hasThrow e = true) :
    ∀ st : EngineState, (interp st e).2 = .error () := by
  induction e with
  | lit v => cases he
  | field k => cases he
  | throwE => intro st; rfl
  | mul a b iha ihb =>
      intro st
      unfold interp
      rcases Bool.or_eq_true_iff.mp he with ha | hb
      · rcases hA : interp st a with ⟨st1, ra⟩
        have := iha ha st
        rw [hA] at this
        simp only at this
        subst this
        rfl
      · rcases hA : interp st a with ⟨st1, ra⟩
        cases ra with
        | error u => rfl
        | ok va =>
            rcases hB : interp st1 b with ⟨st2, rb⟩
            have hbb := ihb hb st1
            rw [hB] at hbb
            simp only at hbb
            subst hbb
            show (match interp st1 b with
              | (st2, Except.ok vb) => (st2, Except.ok (jsMul va vb))
              | (st2, Except.error u) => (st2, Except.error u)).2 = Except.error ()
            rw [hB]

/-- `evaluate` of a computed body that throws: the exception is logged,
`undefined` is produced, and the saved reactivity state is restored. -/
theorem evalGuarded_throw (st : EngineState) (e : CExpr) (h : st.marker = none)
    (he : hasThrow e = true) :
    evalGuarded st e = ({ st with errLog := st.errLog ++ [.computedFailed] }, .sc .undef) := by
  have h1 : (setRState st ReactivityState.Disabled).marker = none := by
    rw [setRState_eq]
    exact h
  unfold evalGuarded
  rcases hI : interp (setRState st ReactivityState.Disabled) e with ⟨st2, r⟩
  have hr := interp_hasThrow e he (setRState st ReactivityState.Disabled)
  rw [hI] at hr
  simp only at hr
  subst hr
  have e2 : st2 = setRState st .Disabled := by
    have hx := interp_marker_none e _ h1
    rw [hI] at hx
    exact hx
  subst e2
  simp [setRState_eq]

/-- `this._observers[i].evaluate()` on a computed whose body throws. -/
theorem evaluateComp_throw (st : EngineState) (c : String) (e : CExpr) (o : ObsCore)
    (h : st.marker = none) (hc : lookupField st c = some (.computed e o))
    (he : hasThrow e = true) :
    evaluateComp st c = ({ st with errLog := st.errLog ++ [.computedFailed] }, .sc .undef) := by
  unfold evaluateComp
  rw [hc]
  exact evalGuarded_throw st e h he

/-- With no marker set, the update cascade only appends to the two event
logs. -/
theorem updateObs_log_mono (wenv : Nat → JVal → JVal → Bool) :
    ∀ (fuel : Nat) (st : EngineState) (ref : ObsRef) (v : JVal), st.marker = none →
      (∃ t, (updateObs wenv fuel st ref v).log = st.log ++ t) ∧
      (∃ u, (updateObs wenv fuel st ref v).errLog = st.errLog ++ u) := by
  intro fuel
  induction fuel with
  | zero =>
      intro st ref v _
      exact ⟨⟨[], by simp [updateObs]⟩, ⟨[], by simp [updateObs]⟩⟩
  | succ n ih =>
      intro st ref v h
      unfold updateObs
      cases hg : getObs st ref with
      | none => exact ⟨⟨[], by simp⟩, ⟨[], by simp⟩⟩
      | some core =>
          have hinv : ∀ s : EngineState,
              ((∃ t, s.log = st.log ++ t) ∧ (∃ u, s.errLog = st.errLog ++ u) ∧
                s.marker = none) →
              ∀ c : String,
              ((∃ t, (updateObs wenv n (evaluateComp s c).1 (.fld c)
                  (evaluateComp s c).2).log = st.log ++ t) ∧
                (∃ u, (updateObs wenv n (evaluateComp s c).1 (.fld c)
                  (evaluateComp s c).2).errLog = st.errLog ++ u) ∧
                (updateObs wenv n (evaluateComp s c).1 (.fld c)
                  (evaluateComp s c).2).marker = none) := by
            intro s hs c
            obtain ⟨⟨t0, ht0⟩, ⟨u0, hu0⟩, hm⟩ := hs
            have hmid : ((∃ t, (evaluateComp s c).1.log = st.log ++ t) ∧
                (∃ u, (evaluateComp s c).1.errLog = st.errLog ++ u) ∧
                (evaluateComp s c).1.marker = none) := by
              rcases evaluateComp_state s c hm with he | he <;> rw [he]
              · exact ⟨⟨t0, ht0⟩, ⟨u0, hu0⟩, hm⟩
              · exact ⟨⟨t0, ht0⟩, ⟨u0 ++ [.computedFailed], by
                  show s.errLog ++ _ = _
                  rw [hu0, List.append_assoc]⟩, hm⟩
            obtain ⟨⟨t1, ht1⟩, ⟨u1, hu1⟩, hm1⟩ := hmid
            obtain ⟨⟨t2, ht2⟩, ⟨u2, hu2⟩⟩ := ih (evaluateComp s c).1 (.fld c)
              (evaluateComp s c).2 hm1
            have hm2 := (updateObs_preserves wenv n (evaluateComp s c).1 (.fld c)
              (evaluateComp s c).2 hm1).marker.trans hm1
            exact ⟨⟨t1 ++ t2, by rw [ht2, ht1, List.append_assoc]⟩,
              ⟨u1 ++ u2, by rw [hu2, hu1, List.append_assoc]⟩, hm2⟩
          have hsp := setObsValue_preserves st ref v
          have hbase : (∃ t, (notifyWatchers wenv (setObsValue st ref v) ref core.watchers v
                core.value).log = st.log ++ t) ∧
              (∃ u, (notifyWatchers wenv (setObsValue st ref v) ref core.watchers v
                core.value).errLog = st.errLog ++ u) ∧
              (notifyWatchers wenv (setObsValue st ref v) ref core.watchers v
                core.value).marker = none := by
            rw [notifyWatchers_eq]
            refine ⟨⟨core.watchers.map (fun w => ⟨ref, w, v, core.value⟩), ?_⟩,
              ⟨watcherErrs wenv core.watchers v core.value, ?_⟩, ?_⟩
            · show (setObsValue st ref v).log ++ _ = _
              rw [setObsValue_log]
            · show (setObsValue st ref v).errLog ++ _ = _
              have : (setObsValue st ref v).errLog = st.errLog := by
                cases ref <;> rfl
              rw [this]
            · show (setObsValue st ref v).marker = none
              exact hsp.marker.trans h
          have hP := foldl_invariant _
            (fun s : EngineState => (∃ t, s.log = st.log ++ t) ∧
              (∃ u, s.errLog = st.errLog ++ u) ∧ s.marker = none)
            (fun s c hs => hinv s hs c) core.observers _ hbase
          exact ⟨hP.1, hP.2.1⟩


/-- C9: exceptions are contained locally.  During `Observable.update`
every watcher is invoked — watchers that throw (per `wenv`) only add a
logged error and do not prevent the remaining watchers or the dependent
computed of the same cascade from running, and `update` returns normally.
A dependent computed whose function throws is still updated: its value
becomes `undefined`.  `evaluate` itself catches the body's exception,
logs it, restores the saved reactivity state and yields `undefined`. -/
theorem claim9_exception_containment (wenv : Nat → JVal → JVal → Bool) (st : EngineState)
    (ref : ObsRef) (core : ObsCore) (v : JVal) (c : String) (e : CExpr) (o : ObsCore)
    (fuel : Nat)
    (hg : getObs st ref = some core)
    (hmark : st.marker = none)
    (hobs : core.observers = [c])
    (hrefc : ref ≠ .fld c)
    (hc : lookupField st c = some (.computed e o))
    (hoobs : o.observers = [])
    (hthrow : hasThrow e = true) :
    (∃ t u, (updateObs wenv (fuel + 2) st ref v).log =
        st.log ++ core.watchers.map (fun w => ⟨ref, w, v, core.value⟩) ++ t ∧
      (updateObs wenv (fuel + 2) st ref v).errLog =
        st.errLog ++ watcherErrs wenv core.watchers v core.value ++ u) ∧
    lookupField (updateObs wenv (fuel + 2) st ref v) c =
      some (.computed e { o with value := .sc .undef }) ∧
    evaluateComp st c = ({ st with errLog := st.errLog ++ [.computedFailed] }, .sc .undef) := by
  have hev := evaluateComp_throw st c e o hmark hc hthrow
  have hsp := setObsValue_preserves st ref v
  have hnp := notifyWatchers_preserves wenv (setObsValue st ref v) ref core.watchers v core.value
  have hm2 : (notifyWatchers wenv (setObsValue st ref v) ref core.watchers v
      core.value).marker = none := (hsp.compose hnp).marker.trans hmark
  have hc2 : lookupField (notifyWatchers wenv (setObsValue st ref v) ref core.watchers v
      core.value) c = some (.computed e o) := by
    rw [notifyWatchers_eq]
    show lookupField (setObsValue st ref v) c = _
    rw [lookupField_setObsValue_ne st ref v c hrefc]
    exact hc
  have hec := evaluateComp_throw
    (notifyWatchers wenv (setObsValue st ref v) ref core.watchers v core.value) c e o hm2 hc2
    hthrow
  have hstep : fuel + 2 = (fuel + 1) + 1 := rfl
  rw [hstep]
  simp only [updateObs]
  rw [hg]
  dsimp only
  rw [hobs]
  simp only [List.foldl_cons, List.foldl_nil]
  rw [hec]
  dsimp only
  have hc3 : lookupField
      { notifyWatchers wenv (setObsValue st ref v) ref core.watchers v core.value with
        errLog := (notifyWatchers wenv (setObsValue st ref v) ref core.watchers v
          core.value).errLog ++ [.computedFailed] } c = some (.computed e o) := hc2
  have hg3 : getObs
      { notifyWatchers wenv (setObsValue st ref v) ref core.watchers v core.value with
        errLog := (notifyWatchers wenv (setObsValue st ref v) ref core.watchers v
          core.value).errLog ++ [.computedFailed] } (.fld c) = some o := by
    show Option.map Field.core (lookupField _ c) = some o
    rw [hc3]
    rfl
  rw [hg3]
  dsimp only
  rw [hoobs]
  simp only [List.foldl_nil]
  have hxeq := notifyWatchers_eq wenv (.fld c) (.sc .undef) o.value o.watchers
    (setObsValue ({ notifyWatchers wenv (setObsValue st ref v) ref core.watchers v core.value with
        errLog := (notifyWatchers wenv (setObsValue st ref v) ref core.watchers v
          core.value).errLog ++ [.computedFailed] } : EngineState) (.fld c) (.sc .undef))
  rw [hxeq]
  have hyeq := notifyWatchers_eq wenv ref v core.value core.watchers (setObsValue st ref v)
  have hlog3 : (setObsValue ({ notifyWatchers wenv (setObsValue st ref v) ref core.watchers v core.value with
        errLog := (notifyWatchers wenv (setObsValue st ref v) ref core.watchers v
          core.value).errLog ++ [.computedFailed] } : EngineState) (.fld c) (.sc .undef)).log =
      st.log ++ core.watchers.map (fun w => ⟨ref, w, v, core.value⟩) := by
    rw [setObsValue_log]
    show (notifyWatchers wenv (setObsValue st ref v) ref core.watchers v core.value).log = _
    rw [hyeq]
    show (setObsValue st ref v).log ++ _ = _
    rw [setObsValue_log]
  have herrsv : ∀ (s : EngineState) (r : ObsRef) (w : JVal),
      (setObsValue s r w).errLog = s.errLog := by
    intro s r w
    cases r <;> rfl
  have herr3 : (setObsValue ({ notifyWatchers wenv (setObsValue st ref v) ref core.watchers v core.value with
        errLog := (notifyWatchers wenv (setObsValue st ref v) ref core.watchers v
          core.value).errLog ++ [.computedFailed] } : EngineState) (.fld c) (.sc .undef)).errLog =
      st.errLog ++ watcherErrs wenv core.watchers v core.value ++ [ErrEvent.computedFailed] := by
    rw [herrsv]
    show (notifyWatchers wenv (setObsValue st ref v) ref core.watchers v
      core.value).errLog ++ [ErrEvent.computedFailed] = _
    rw [hyeq]
    show (setObsValue st ref v).errLog ++ _ ++ _ = _
    rw [herrsv]
  refine ⟨⟨o.watchers.map (fun w => ⟨.fld c, w, .sc .undef, o.value⟩),
      [ErrEvent.computedFailed] ++ watcherErrs wenv o.watchers (.sc .undef) o.value, ?_, ?_⟩,
    ?_, hev⟩
  · show (setObsValue _ (.fld c) (.sc .undef)).log ++ _ = _
    rw [hlog3]
  · show (setObsValue _ (.fld c) (.sc .undef)).errLog ++ _ = _
    rw [herr3]
    simp [List.append_assoc]
  · show lookupField (setObsValue _ (.fld c) (.sc .undef)) c = _
    rw [lookupField_setObsValue_self, hc3]
    simp [Field.withCore, Field.core, hoobs]


/-- `observeArrayItems` appends exactly the loop's index sequence to the
ghost record of `defineReactiveProperty` calls, and touches nothing but
the element observables and that record. -/
theorem observeArrayItems_calls (start stop : Int) :
    ∀ (l : List Int) (st : EngineState),
      ((l.foldl (fun s i =>
          let obs : ObsCore := ⟨.sc (elemAt s.arrItems i), [], []⟩
          { s with
              arrElemObs := s.arrElemObs.filter (fun p => p.1 ≠ i) ++ [(i, obs)],
              obsCalls := s.obsCalls ++ [i] }) st).obsCalls = st.obsCalls ++ l) ∧
      ((l.foldl (fun s i =>
          let obs : ObsCore := ⟨.sc (elemAt s.arrItems i), [], []⟩
          { s with
              arrElemObs := s.arrElemObs.filter (fun p => p.1 ≠ i) ++ [(i, obs)],
              obsCalls := s.obsCalls ++ [i] }) st).marker = st.marker) := by
  intro l
  induction l with
  | nil => intro st; exact ⟨by simp, rfl⟩
  | cons x xs ih =>
      intro st
      simp only [List.foldl_cons]
      refine ⟨?_, ?_⟩
      · rw [(ih _).1]
        simp
      · rw [(ih _).2]

/-- The ghost `obsCalls` view of `observeArrayItems` itself. -/
theorem observeArrayItems_obsCalls (st : EngineState) (start stop : Int) :
    (observeArrayItems st start stop).obsCalls = st.obsCalls ++ intRange start stop ∧
    (observeArrayItems st start stop).marker = st.marker := by
  exact ⟨(observeArrayItems_calls start stop (intRange start stop) st).1,
    (observeArrayItems_calls start stop (intRange start stop) st).2⟩

/-- C2 corrected: a wrapped `splice` under `Enabled` mode, called with a
start argument, a numeric `removalCount` and `rest` inserted items, makes
reactive exactly the `max(0, argsSupplied − removalCount)` trailing
elements of the post-splice array — the indices
`[newLen − max(0, argsSupplied − removalCount), newLen)` — not the
`argsSupplied − 2 − removalCount` elements at the target position the
claim asserts. -/
theorem claim2_amended_splice_observes_tail (wenv : Nat → JVal → JVal → Bool) (fuel : Nat)
    (st : EngineState) (v0 : Val) (d : Int) (rest : List Val)
    (hmode : st.reactivityState = .Enabled) (hmark : st.marker = none) :
    (mutator wenv fuel st .splice (v0 :: Val.num d :: rest)).1.obsCalls =
      st.obsCalls ++
        intRange
          (((spliceNative st.arrItems (v0 :: Val.num d :: rest)).1.length : Int) -
            max 0 (((v0 :: Val.num d :: rest).length : Int) - d))
          ((spliceNative st.arrItems (v0 :: Val.num d :: rest)).1.length : Int) := by
  unfold mutator
  rw [hmode]
  dsimp only
  rw [show (v0 :: Val.num d :: rest).get? 1 = some (Val.num d) from rfl]
  dsimp only
  rw [show nativeApply st.arrItems AMethod.splice (v0 :: Val.num d :: rest) =
    spliceNative st.arrItems (v0 :: Val.num d :: rest) from rfl]
  have hoc := observeArrayItems_obsCalls
    { st with
        reactivityState := .Enabled
        arrItems := (spliceNative st.arrItems (v0 :: Val.num d :: rest)).1 }
    (((spliceNative st.arrItems (v0 :: Val.num d :: rest)).1.length : Int) -
      max 0 (((v0 :: Val.num d :: rest).length : Int) - d))
    ((spliceNative st.arrItems (v0 :: Val.num d :: rest)).1.length : Int)
  have hpres := updateObs_preserves wenv fuel
    (observeArrayItems
      { st with
          reactivityState := .Enabled
          arrItems := (spliceNative st.arrItems (v0 :: Val.num d :: rest)).1 }
      (((spliceNative st.arrItems (v0 :: Val.num d :: rest)).1.length : Int) -
        max 0 (((v0 :: Val.num d :: rest).length : Int) - d))
      ((spliceNative st.arrItems (v0 :: Val.num d :: rest)).1.length : Int))
    .arr (.arrv (spliceNative st.arrItems (v0 :: Val.num d :: rest)).1)
    (hoc.2.trans hmark)
  rw [hpres.obsCalls, hoc.1]

/-- C2 counterexample: `splice(0, 0, 9)` on the observed array `[1, 2, 3]`
(3 arguments, removal count 0).  The claim predicts
`max(0, 3 − 2 − 0) = 1` newly inserted element made reactive, at the
target position `0`.  The code instead makes elements at indices 1, 2, 3
(the tail) reactive: 3 elements, and index 0 is not among them. -/
theorem claim2_splice_observes_tail_cex :
    (mutator noThrow 2 (initState .Enabled [] [.num 1, .num 2, .num 3]) .splice
        [.num 0, .num 0, .num 9]).1.obsCalls = [1, 2, 3] ∧
    (3 : Nat) ≠ Int.toNat (max 0 ((3 : Int) - 2 - 0)) ∧
    (0 : Int) ∉ [(1 : Int), 2, 3] := by
  refine ⟨?_, by decide, by decide⟩
  rfl

/-- C2 witness: `splice(1, 1, 7, 8)` on `[10, 20, 30]` under `Enabled`:
4 arguments, removal count 1, so the last `max(0, 4 − 1) = 3` positions of
the new array `[10, 7, 8, 30]` are made reactive. -/
theorem claim2_amended_splice_observes_tail_witness :
    (mutator noThrow 2 (initState .Enabled [] [.num 10, .num 20, .num 30]) .splice
        [.num 1, .num 1, .num 7, .num 8]).1.obsCalls = [1, 2, 3] := by
  have h := claim2_amended_splice_observes_tail noThrow 2
    (initState .Enabled [] [.num 10, .num 20, .num 30]) (.num 1) 1 [.num 7, .num 8]
    rfl rfl
  rw [h]
  rfl


/-- C3 corrected: `$commit` on an existing mutation runs the mutation on
the state with the reactivity state forced to `Enabled`, passes its
result or exception through, and in the `finally` block sets the
reactivity state to `Disabled` unconditionally — on both the normal and
the exception path.  The mode current before the call is *not* restored:
whatever it was, after `$commit` it is `Disabled`. -/
theorem claim3_amended_commit_brackets_enabled_then_disabled
    (muts : List (String × MutFn)) (name : String) (f : MutFn) (st : EngineState)
    (hm : (muts.find? (fun p => p.1 == name)).map (fun p => p.2) = some f) :
    (setRState st .Enabled).reactivityState = .Enabled ∧
    commit muts name st =
      (setRState (f (setRState st .Enabled)).1 .Disabled, (f (setRState st .Enabled)).2) ∧
    (commit muts name st).1.reactivityState = .Disabled := by
  refine ⟨by rw [setRState_eq], ?_, ?_⟩
  · unfold commit
    rw [hm]
  · unfold commit
    rw [hm]
    show (setRState (f (setRState st .Enabled)).1 .Disabled).reactivityState = _
    rw [setRState_eq]

/-- C3 counterexample: with the reactivity state `Lazy` before the call,
`$commit` of a trivial mutation leaves the state `Disabled`, not the
pre-call `Lazy` the claim asserts is restored. -/
theorem claim3_commit_does_not_restore_cex :
    (commit [("m", fun s => (s, Except.ok (.sc .undef)))] "m"
        (initState .Lazy [] [])).1.reactivityState = .Disabled ∧
    (initState .Lazy [] []).reactivityState = .Lazy ∧
    ReactivityState.Disabled ≠ ReactivityState.Lazy := by
  exact ⟨rfl, rfl, by decide⟩

/-- C3 witness: a mutation that throws; the mode during the mutation is
`Enabled` and afterwards `Disabled`, the exception passing through. -/
theorem claim3_amended_commit_brackets_witness :
    (setRState (initState .Lazy [] []) .Enabled).reactivityState = .Enabled ∧
    commit [("boom", fun s => (s, Except.error .mutationDisabled))] "boom"
        (initState .Lazy [] []) =
      (setRState ((fun (s : EngineState) =>
          (s, (Except.error Err.mutationDisabled : Except Err JVal)))
            (setRState (initState .Lazy [] []) .Enabled)).1 .Disabled,
        ((fun (s : EngineState) =>
          (s, (Except.error Err.mutationDisabled : Except Err JVal)))
            (setRState (initState .Lazy [] []) .Enabled)).2) ∧
    (commit [("boom", fun s => (s, Except.error .mutationDisabled))] "boom"
        (initState .Lazy [] [])).1.reactivityState = .Disabled := by
  exact claim3_amended_commit_brackets_enabled_then_disabled
    [("boom", fun s => (s, Except.error .mutationDisabled))] "boom"
    (fun s => (s, Except.error .mutationDisabled)) (initState .Lazy [] []) rfl


/-- `observeArrayItems` leaves queue, mode, replay log and marker
alone. -/
theorem observeArrayItems_props (st : EngineState) (a b : Int) :
    (observeArrayItems st a b).queue = st.queue ∧
    (observeArrayItems st a b).reactivityState = st.reactivityState ∧
    (observeArrayItems st a b).replayLog = st.replayLog ∧
    (observeArrayItems st a b).marker = st.marker := by
  unfold observeArrayItems
  refine foldl_invariant _
    (fun s : EngineState => s.queue = st.queue ∧ s.reactivityState = st.reactivityState ∧
      s.replayLog = st.replayLog ∧ s.marker = st.marker) ?_ _ _ ⟨rfl, rfl, rfl, rfl⟩
  intro s i hs
  exact ⟨hs.1, hs.2.1, hs.2.2.1, hs.2.2.2⟩

/-- The structural-change notification at the end of a wrapped mutator,
after an `observeArrayItems` step, neither enqueues nor changes mode,
marker or replay log. -/
theorem arrNotify_props (wenv : Nat → JVal → JVal → Bool) (cf : Nat) (s1 : EngineState)
    (a b : Int) (v : JVal) (hmode1 : s1.reactivityState = .Enabled)
    (hmark1 : s1.marker = none) :
    (updateObs wenv cf (observeArrayItems s1 a b) .arr v).queue = s1.queue ∧
    (updateObs wenv cf (observeArrayItems s1 a b) .arr v).reactivityState = .Enabled ∧
    (updateObs wenv cf (observeArrayItems s1 a b) .arr v).marker = none ∧
    (updateObs wenv cf (observeArrayItems s1 a b) .arr v).replayLog = s1.replayLog := by
  have ho := observeArrayItems_props s1 a b
  have hp := updateObs_preserves wenv cf (observeArrayItems s1 a b) .arr v
    (ho.2.2.2.trans hmark1)
  exact ⟨hp.queue.trans ho.1, (hp.mode.trans ho.2.1).trans hmode1,
    hp.marker.trans (ho.2.2.2.trans hmark1), hp.replayLog.trans ho.2.2.1⟩

/-- Same, without an `observeArrayItems` step in between. -/
theorem arrNotifyPlain_props (wenv : Nat → JVal → JVal → Bool) (cf : Nat) (s1 : EngineState)
    (v : JVal) (hmode1 : s1.reactivityState = .Enabled) (hmark1 : s1.marker = none) :
    (updateObs wenv cf s1 .arr v).queue = s1.queue ∧
    (updateObs wenv cf s1 .arr v).reactivityState = .Enabled ∧
    (updateObs wenv cf s1 .arr v).marker = none ∧
    (updateObs wenv cf s1 .arr v).replayLog = s1.replayLog := by
  have hp := updateObs_preserves wenv cf s1 .arr v hmark1
  exact ⟨hp.queue, hp.mode.trans hmode1, hp.marker.trans hmark1, hp.replayLog⟩

/-- Replaying one queue item while the state is `Enabled` (as during a
drain) neither enqueues again nor changes mode, marker or replay log. -/
theorem replayItem_props (wenv : Nat → JVal → JVal → Bool) (cf : Nat) (st : EngineState)
    (it : QItem) (hmode : st.reactivityState = .Enabled) (hmark : st.marker = none) :
    (replayItem wenv cf st it).1.queue = st.queue ∧
    (replayItem wenv cf st it).1.reactivityState = .Enabled ∧
    (replayItem wenv cf st it).1.marker = none ∧
    (replayItem wenv cf st it).1.replayLog = st.replayLog := by
  cases it with
  | external id args thr =>
      unfold replayItem
      by_cases ht : thr <;> simp [ht, hmode, hmark]
  | setterWrite k v =>
      unfold replayItem
      dsimp only
      unfold setField
      cases hf : lookupField st k with
      | none => exact ⟨rfl, hmode, hmark, rfl⟩
      | some f =>
          cases f with
          | computed e o => exact ⟨rfl, hmode, hmark, rfl⟩
          | scalar core =>
              rw [hmode]
              dsimp only
              by_cases hvv : core.value ≠ .sc v
              · rw [if_pos hvv]
                have hp := updateObs_preserves wenv cf st (.fld k) (.sc v) hmark
                exact ⟨hp.queue, hp.mode.trans hmode, hp.marker.trans hmark, hp.replayLog⟩
              · rw [if_neg hvv]
                exact ⟨rfl, hmode, hmark, rfl⟩
  | arrayMut m args =>
      unfold replayItem
      dsimp only
      unfold mutator
      rw [hmode]
      dsimp only
      cases m with
      | push =>
          dsimp only
          exact arrNotify_props wenv cf _ _ _ _ rfl hmark
      | unshift =>
          dsimp only
          exact arrNotify_props wenv cf _ _ _ _ rfl hmark
      | pop =>
          dsimp only
          exact arrNotifyPlain_props wenv cf _ _ rfl hmark
      | shift =>
          dsimp only
          exact arrNotifyPlain_props wenv cf _ _ rfl hmark
      | sort =>
          dsimp only
          exact arrNotifyPlain_props wenv cf _ _ rfl hmark
      | reverse =>
          dsimp only
          exact arrNotifyPlain_props wenv cf _ _ rfl hmark
      | splice =>
          dsimp only
          cases hg1 : args.get? 1 with
          | none =>
              dsimp only
              exact arrNotifyPlain_props wenv cf _ _ rfl hmark
          | some vv =>
              cases vv with
              | num d =>
                  dsimp only
                  exact arrNotify_props wenv cf _ _ _ _ rfl hmark
              | str s2 =>
                  dsimp only
                  exact arrNotifyPlain_props wenv cf _ _ rfl hmark
              | undef =>
                  dsimp only
                  exact arrNotifyPlain_props wenv cf _ _ rfl hmark

/-- The drain loop: items are popped and replayed head-first under
`Enabled`; on an exception the state is left `Enabled`; on normal
completion the ghost replay log has recorded the initial queue in FIFO
order and the queue is empty. -/
theorem drainLoop_props (wenv : Nat → JVal → JVal → Bool) (cf : Nat) :
    ∀ (n : Nat) (st : EngineState), st.reactivityState = .Enabled → st.marker = none →
      st.queue.length ≤ n →
      ((drainLoop wenv cf n st).2 = none →
        (drainLoop wenv cf n st).1.replayLog = st.replayLog ++ st.queue ∧
        (drainLoop wenv cf n st).1.queue = []) ∧
      (drainLoop wenv cf n st).1.reactivityState = .Enabled := by
  intro n
  induction n with
  | zero =>
      intro st hmode hmark hlen
      have hq : st.queue = [] := List.length_eq_zero.mp (Nat.le_zero.mp hlen)
      exact ⟨fun _ => ⟨by simp [drainLoop, hq], by simp [drainLoop, hq]⟩,
        by simp [drainLoop, hmode]⟩
  | succ n ih =>
      intro st hmode hmark hlen
      unfold drainLoop
      cases hq : st.queue with
      | nil => exact ⟨fun _ => ⟨by simp, hq⟩, hmode⟩
      | cons it rest =>
          dsimp only
          have hr := replayItem_props wenv cf
            { st with queue := rest, replayLog := st.replayLog ++ [it] } it hmode hmark
          cases he : (replayItem wenv cf
              { st with queue := rest, replayLog := st.replayLog ++ [it] } it).2 with
          | some e =>
              refine ⟨fun hc => ?_, hr.2.1⟩
              cases hc
          | none =>
              have hlen2 : (replayItem wenv cf
                  { st with queue := rest, replayLog := st.replayLog ++ [it] }
                  it).1.queue.length ≤ n := by
                rw [hr.1]
                show rest.length ≤ n
                rw [hq] at hlen
                exact Nat.le_of_succ_le_succ hlen
              have hi := ih (replayItem wenv cf
                { st with queue := rest, replayLog := st.replayLog ++ [it] } it).1
                hr.2.1 hr.2.2.1 hlen2
              refine ⟨fun hc => ?_, hi.2⟩
              obtain ⟨h1, h2⟩ := hi.1 hc
              refine ⟨?_, h2⟩
              rw [h1, hr.2.2.2, hr.1]
              show (st.replayLog ++ [it]) ++ rest = _
              rw [List.append_assoc]
              rfl


/-- When the drain loop raises, the items invoked so far (the extension
of the ghost replay log) followed by the items still queued reconstruct
the original queue in order: the not-yet-invoked items stay queued. -/
theorem drainLoop_throw_queue (wenv : Nat → JVal → JVal → Bool) (cf : Nat) :
    ∀ (n : Nat) (st : EngineState), st.reactivityState = .Enabled → st.marker = none →
      ∀ e, (drainLoop wenv cf n st).2 = some e →
        ∃ pre, (drainLoop wenv cf n st).1.replayLog = st.replayLog ++ pre ∧
          st.queue = pre ++ (drainLoop wenv cf n st).1.queue := by
  intro n
  induction n with
  | zero =>
      intro st hmode hmark e he
      simp [drainLoop] at he
  | succ n ih =>
      intro st hmode hmark e
      unfold drainLoop
      cases hq : st.queue with
      | nil =>
          intro he
          simp at he
      | cons it rest =>
          dsimp only
          have hr := replayItem_props wenv cf
            { st with queue := rest, replayLog := st.replayLog ++ [it] } it hmode hmark
          cases hrep : (replayItem wenv cf
              { st with queue := rest, replayLog := st.replayLog ++ [it] } it).2 with
          | some e2 =>
              dsimp only
              intro _
              refine ⟨[it], ?_, ?_⟩
              · rw [hr.2.2.2]
              · rw [hr.1]
                rfl
          | none =>
              dsimp only
              intro he
              obtain ⟨pre2, hrl, hqq⟩ := ih (replayItem wenv cf
                { st with queue := rest, replayLog := st.replayLog ++ [it] } it).1
                hr.2.1 hr.2.2.1 e he
              refine ⟨it :: pre2, ?_, ?_⟩
              · rw [hrl, hr.2.2.2]
                show (st.replayLog ++ [it]) ++ pre2 = _
                rw [List.append_assoc]
                rfl
              · have hrest : rest = pre2 ++ (drainLoop wenv cf n (replayItem wenv cf
                    { st with queue := rest, replayLog := st.replayLog ++ [it] }
                    it).1).1.queue := by
                  rw [← hqq, hr.1]
                exact congrArg (List.cons it) hrest

/-- C4 corrected: `processReactivityQueue` records the current reactivity
state, forces `Enabled`, and replays the queued items in FIFO order with
their captured arguments and context (witnessed by the ghost replay log).
On normal completion the recorded state is restored and the queue is
empty.  On the exception path the claim fails: there is no
`try`/`finally`, so when a replayed item throws, the restore statement is
never reached and the reactivity state is left at `Enabled`, not restored
to the recorded value, while the items invoked before the throw (the
replay-log extension) followed by the not-yet-invoked items — which stay
queued — reconstruct the original queue in order. -/
theorem claim4_amended_drain_restores_only_on_success
    (wenv : Nat → JVal → JVal → Bool) (cf qf : Nat) (st : EngineState)
    (hmark : st.marker = none) (hqf : st.queue.length ≤ qf) :
    ((processReactivityQueue wenv cf qf st).2 = none →
      (processReactivityQueue wenv cf qf st).1.reactivityState = st.reactivityState ∧
      (processReactivityQueue wenv cf qf st).1.replayLog = st.replayLog ++ st.queue ∧
      (processReactivityQueue wenv cf qf st).1.queue = []) ∧
    (∀ e, (processReactivityQueue wenv cf qf st).2 = some e →
      (processReactivityQueue wenv cf qf st).1.reactivityState = .Enabled ∧
      ∃ pre, (processReactivityQueue wenv cf qf st).1.replayLog = st.replayLog ++ pre ∧
        st.queue = pre ++ (processReactivityQueue wenv cf qf st).1.queue) := by
  have hm1 : (setRState st .Enabled).reactivityState = .Enabled := by rw [setRState_eq]
  have hmk1 : (setRState st .Enabled).marker = none := by
    rw [setRState_eq]
    exact hmark
  have hq1 : (setRState st .Enabled).queue = st.queue := by rw [setRState_eq]
  have hrl1 : (setRState st .Enabled).replayLog = st.replayLog := by rw [setRState_eq]
  have hd := drainLoop_props wenv cf qf (setRState st .Enabled) hm1 hmk1 (by rw [hq1]; exact hqf)
  unfold processReactivityQueue
  rcases hres : drainLoop wenv cf qf (setRState st .Enabled) with ⟨st2, res⟩
  rw [hres] at hd
  cases res with
  | none =>
      obtain ⟨h1, h2⟩ := hd.1 rfl
      refine ⟨fun _ => ⟨?_, ?_, ?_⟩, fun e he => by cases he⟩
      · show (setRState st2 st.reactivityState).reactivityState = _
        rw [setRState_eq]
      · show (setRState st2 st.reactivityState).replayLog = _
        rw [setRState_eq]
        show st2.replayLog = _
        rw [h1, hrl1, hq1]
      · show (setRState st2 st.reactivityState).queue = _
        rw [setRState_eq]
        exact h2
  | some e =>
      have hth := drainLoop_throw_queue wenv cf qf (setRState st .Enabled) hm1 hmk1
      rw [hres] at hth
      refine ⟨(fun hc => nomatch hc), fun e2 he2 => ⟨hd.2, ?_⟩⟩
      obtain ⟨pre, hp1, hp2⟩ := hth e rfl
      rw [hrl1] at hp1
      rw [hq1] at hp2
      exact ⟨pre, hp1, hp2⟩

/-- C4 counterexample: with the reactivity state `Lazy` and a queue
holding an externally enqueued function that throws followed by a benign
item, the drain raises and leaves the state `Enabled` — the recorded
`Lazy` is not restored on the exception path — with only the throwing
item invoked and the not-yet-invoked second item still queued. -/
theorem claim4_drain_mode_leak_cex :
    (processReactivityQueue noThrow 2 2
        { initState .Lazy [] [] with
            queue := [.external 3 [] true, .external 4 [.num 7] false] }).2 =
      some (.externalThrow 3) ∧
    (processReactivityQueue noThrow 2 2
        { initState .Lazy [] [] with
            queue := [.external 3 [] true,
              .external 4 [.num 7] false] }).1.reactivityState = .Enabled ∧
    ({ initState .Lazy [] [] with
        queue := [.external 3 [] true, .external 4 [.num 7] false] } :
      EngineState).reactivityState = .Lazy ∧
    ReactivityState.Enabled ≠ ReactivityState.Lazy ∧
    (processReactivityQueue noThrow 2 2
        { initState .Lazy [] [] with
            queue := [.external 3 [] true, .external 4 [.num 7] false] }).1.replayLog =
      [.external 3 [] true] ∧
    (processReactivityQueue noThrow 2 2
        { initState .Lazy [] [] with
            queue := [.external 3 [] true, .external 4 [.num 7] false] }).1.queue =
      [.external 4 [.num 7] false] := by
  exact ⟨rfl, rfl, rfl, by decide, rfl, rfl⟩

/-- C4 witness: draining a queue with one benign external item under
`Lazy` replays it (FIFO replay log), empties the queue, and restores
`Lazy`. -/
theorem claim4_amended_drain_restores_only_on_success_witness :
    (processReactivityQueue noThrow 2 2
        { initState .Lazy [] [] with
            queue := [.external 1 [.num 4] false] }).1.reactivityState = .Lazy ∧
    (processReactivityQueue noThrow 2 2
        { initState .Lazy [] [] with
            queue := [.external 1 [.num 4] false] }).1.replayLog =
      [.external 1 [.num 4] false] ∧
    (processReactivityQueue noThrow 2 2
        { initState .Lazy [] [] with
            queue := [.external 1 [.num 4] false] }).1.queue = [] := by
  have h := claim4_amended_drain_restores_only_on_success noThrow 2 2
    { initState .Lazy [] [] with queue := [.external 1 [.num 4] false] } rfl (by decide)
  have h0 := h.1 rfl
  exact ⟨h0.1, h0.2.1, h0.2.2⟩


/-- Draining a queue holding exactly one deferred scalar write under
`Enabled` mode applies the write: the drain succeeds and the written
field ends up holding the assigned value. -/
theorem drain_single_setter (wenv : Nat → JVal → JVal → Bool) (cf : Nat)
    (st : EngineState) (k : String) (core : ObsCore) (v : Val)
    (hmode : st.reactivityState = .Enabled) (hmark : st.marker = none)
    (hq : st.queue = [QItem.setterWrite k v]) (hK : KNotObserver st k)
    (hf : lookupField st k = some (.scalar core)) :
    (drainLoop wenv (cf + 1) 1 st).2 = none ∧
    lookupField (drainLoop wenv (cf + 1) 1 st).1 k =
      some (.scalar { core with value := JVal.sc v }) := by
  have h01 : drainLoop wenv (cf + 1) 1 st = drainLoop wenv (cf + 1) (0 + 1) st := rfl
  rw [h01]
  unfold drainLoop
  rw [hq]
  dsimp only
  unfold replayItem
  dsimp only
  unfold setField
  have hf0 : lookupField
      { st with queue := ([] : List QItem)
                replayLog := st.replayLog ++ [QItem.setterWrite k v] } k
      = some (Field.scalar core) := hf
  rw [hf0]
  dsimp only
  rw [hmode]
  dsimp only
  by_cases hvv : core.value ≠ JVal.sc v
  · rw [if_pos hvv]
    dsimp only
    refine ⟨rfl, ?_⟩
    have hf1 : lookupField
        { st with reactivityState := ReactivityState.Enabled
                  queue := ([] : List QItem)
                  replayLog := st.replayLog ++ [QItem.setterWrite k v] } k
        = some (Field.scalar core) := hf
    have hupd := (updateObs_fld_self wenv k (fun _ => false)
      (fun ent he => by cases he) cf
      { st with reactivityState := ReactivityState.Enabled
                queue := ([] : List QItem)
                replayLog := st.replayLog ++ [QItem.setterWrite k v] }
      (JVal.sc v) (Field.scalar core) hmark hK hf1).2
    simp only [Field.withCore, Field.core] at hupd
    exact hupd
  · rw [if_neg hvv]
    dsimp only
    refine ⟨rfl, ?_⟩
    have hvv2 : core.value = JVal.sc v := not_not.mp hvv
    rw [← hvv2]
    exact hf0

/-- C6: while the reactivity state is `Lazy`, assigning to an intercepted
scalar data field performs no data change — the stored value is unchanged
and the call is enqueued on `reactivityActionQueue` as
`{func: reactiveSetter, args: [value]}` — and a subsequent
`processReactivityQueue` replays the deferred write, after which the
field holds the assigned value and the recorded `Lazy` state is
restored. -/
theorem claim6_lazy_write_deferred (wenv : Nat → JVal → JVal → Bool) (cf : Nat)
    (st : EngineState) (k : String) (core : ObsCore) (v : Val)
    (hmode : st.reactivityState = .Lazy) (hmark : st.marker = none)
    (hq0 : st.queue = []) (hK : KNotObserver st k)
    (hf : lookupField st k = some (.scalar core)) :
    setField wenv (cf + 1) st k v =
      ({ st with queue := st.queue ++ [.setterWrite k v] }, .ok ()) ∧
    lookupField (setField wenv (cf + 1) st k v).1 k = some (.scalar core) ∧
    (processReactivityQueue wenv (cf + 1) 1 (setField wenv (cf + 1) st k v).1).2 = none ∧
    lookupField
        (processReactivityQueue wenv (cf + 1) 1 (setField wenv (cf + 1) st k v).1).1 k =
      some (.scalar { core with value := JVal.sc v }) ∧
    (processReactivityQueue wenv (cf + 1) 1
        (setField wenv (cf + 1) st k v).1).1.reactivityState = .Lazy := by
  have hset : setField wenv (cf + 1) st k v =
      ({ st with queue := st.queue ++ [.setterWrite k v] }, .ok ()) := by
    unfold setField
    rw [hf, hmode]
  have hq2 : (setField wenv (cf + 1) st k v).1 =
      { st with queue := [QItem.setterWrite k v] } := by
    rw [hset, hq0]
    rfl
  have hS1 : setRState ({ st with queue := [QItem.setterWrite k v] } : EngineState) .Enabled
      = { st with reactivityState := ReactivityState.Enabled
                  queue := [QItem.setterWrite k v] } := setRState_eq _ _
  have hrun : (processReactivityQueue wenv (cf + 1) 1
        ({ st with queue := [QItem.setterWrite k v] } : EngineState)).2 = none ∧
      lookupField (processReactivityQueue wenv (cf + 1) 1
        ({ st with queue := [QItem.setterWrite k v] } : EngineState)).1 k =
        some (.scalar { core with value := JVal.sc v }) ∧
      (processReactivityQueue wenv (cf + 1) 1
        ({ st with queue := [QItem.setterWrite k v] } : EngineState)).1.reactivityState =
        st.reactivityState := by
    have hd := drain_single_setter wenv cf
      { st with reactivityState := ReactivityState.Enabled
                queue := [QItem.setterWrite k v] } k core v rfl hmark rfl hK hf
    unfold processReactivityQueue
    rw [hS1]
    rcases hres : drainLoop wenv (cf + 1) 1
      { st with reactivityState := ReactivityState.Enabled
                queue := [QItem.setterWrite k v] } with ⟨st2, res⟩
    rw [hres] at hd
    cases res with
    | some e => exact absurd hd.1 (Option.some_ne_none e)
    | none =>
        dsimp only
        refine ⟨rfl, ?_, ?_⟩
        · rw [setRState_eq]
          exact hd.2
        · rw [setRState_eq]
  refine ⟨hset, ?_, ?_, ?_, ?_⟩
  · rw [hq2]
    exact hf
  · rw [hq2]
    exact hrun.1
  · rw [hq2]
    exact hrun.2.1
  · rw [hq2]
    rw [hrun.2.2]
    exact hmode

theorem claim6_lazy_write_deferred_witness :
    setField noThrow 1
        ({ initState .Lazy [] [] with
            fields := [("price", Field.scalar ⟨.sc (.num 10), [3], []⟩)] }) "price" (.num 42)
      = ({ initState .Lazy [] [] with
            fields := [("price", Field.scalar ⟨.sc (.num 10), [3], []⟩)]
            queue := [QItem.setterWrite "price" (.num 42)] }, .ok ()) ∧
    lookupField
        (processReactivityQueue noThrow 1 1
          (setField noThrow 1
            ({ initState .Lazy [] [] with
                fields := [("price", Field.scalar ⟨.sc (.num 10), [3], []⟩)] }) "price"
            (.num 42)).1).1 "price"
      = some (Field.scalar ⟨.sc (.num 42), [3], []⟩) ∧
    (processReactivityQueue noThrow 1 1
        (setField noThrow 1
          ({ initState .Lazy [] [] with
              fields := [("price", Field.scalar ⟨.sc (.num 10), [3], []⟩)] }) "price"
          (.num 42)).1).1.reactivityState = .Lazy := by
  have h := claim6_lazy_write_deferred noThrow 0
    ({ initState .Lazy [] [] with
        fields := [("price", Field.scalar ⟨.sc (.num 10), [3], []⟩)] }) "price"
    ⟨.sc (.num 10), [3], []⟩ (.num 42) rfl rfl rfl
    (by exact ⟨by decide, by decide⟩) rfl
  exact ⟨h.1, h.2.2.2.1, h.2.2.2.2⟩


theorem claim9_exception_containment_witness :
    lookupField
        (updateObs (fun w _ _ => w == 1) 3
          ({ initState .Enabled [] [] with
              fields := [("a", Field.scalar ⟨.sc (.num 0), [1, 2], ["c"]⟩),
                ("c", Field.computed .throwE ⟨.sc .undef, [], []⟩)] })
          (.fld "a") (.sc (.num 5))) "c"
      = some (Field.computed .throwE ⟨.sc .undef, [], []⟩) ∧
    evaluateComp
        ({ initState .Enabled [] [] with
            fields := [("a", Field.scalar ⟨.sc (.num 0), [1, 2], ["c"]⟩),
              ("c", Field.computed .throwE ⟨.sc .undef, [], []⟩)] }) "c"
      = ({ initState .Enabled [] [] with
            fields := [("a", Field.scalar ⟨.sc (.num 0), [1, 2], ["c"]⟩),
              ("c", Field.computed .throwE ⟨.sc .undef, [], []⟩)]
            errLog := [ErrEvent.computedFailed] }, .sc .undef) := by
  have h := claim9_exception_containment (fun w _ _ => w == 1)
    ({ initState .Enabled [] [] with
        fields := [("a", Field.scalar ⟨.sc (.num 0), [1, 2], ["c"]⟩),
          ("c", Field.computed .throwE ⟨.sc .undef, [], []⟩)] })
    (.fld "a") ⟨.sc (.num 0), [1, 2], ["c"]⟩ (.sc (.num 5)) "c" .throwE
    ⟨.sc .undef, [], []⟩ 1 rfl rfl rfl (by decide) rfl rfl rfl
  exact ⟨h.2.1, h.2.2⟩

end Fission

namespace FissionHeap

/-- Unfolding `observeObject` at positive fuel, with the loop body named. -/
theorem observeObject_succ (fuel : Nat) (h : Heap) (a : Nat) (obsArg : Option Nat) :
    observeObject (fuel + 1) h a obsArg =
      match getObj h a with
      | none => (h, true)
      | some obj =>
          let done := (obj.props.map (fun p => p.1)).foldl (obsStep fuel a) (h, true)
          if obj.kind = .arr then
            if obj.attachedDefined then done
            else
              (mapObj done.1 a (fun o =>
                { o with attachedDefined := true, attachedObs := obsArg, augmented := true }),
               done.2)
          else
            (mapObj done.1 a (fun o => { o with objSealed := true }), done.2) := by
  rfl

/-- Allocating an observable does not change the object store. -/
theorem getObj_newObservable (h : Heap) (v : HVal) (b : Nat) :
    getObj (newObservable h v).1 b = getObj h b := rfl

/-- Keyed in-place map against `find?`, over the heap's object list. -/
theorem find_map_keyed_nat (f : HObj → HObj) (b a : Nat) :
    ∀ l : List (Nat × HObj),
      (l.map (fun p => if p.1 == a then (p.1, f p.2) else p)).find? (fun p => p.1 == b) =
        if b = a then (l.find? (fun p => p.1 == b)).map (fun p => (p.1, f p.2))
        else l.find? (fun p => p.1 == b) := by
  intro l
  induction l with
  | nil => by_cases h : b = a <;> simp [h]
  | cons x xs ih =>
      simp only [List.map_cons, List.find?_cons]
      by_cases h2 : x.1 = a
      · by_cases h1 : x.1 = b
        · have hk : b = a := h1.symm.trans h2
          simp [h1, h2, hk, ih, -List.find?_map]
        · have hbk : ¬ a = b := fun hc => h1 (h2.trans hc)
          have hk : ¬ b = a := fun hc => hbk hc.symm
          have hb : (a == b) = false := beq_eq_false_iff_ne.mpr hbk
          simp [h2, hb, hk, -List.find?_map]
          simpa [hk, -List.find?_map] using ih
      · by_cases h1 : x.1 = b
        · have hk : ¬ b = a := fun hc => h2 (h1.trans hc)
          simp [h1, h2, hk, -List.find?_map]
        · have hb : (x.1 == b) = false := beq_eq_false_iff_ne.mpr h1
          simp [hb, h2, -List.find?_map]
          simpa [-List.find?_map] using ih

/-- `getObj` after `mapObj`. -/
theorem getObj_mapObj (h : Heap) (a : Nat) (f : HObj → HObj) (b : Nat) :
    getObj (mapObj h a f) b = if b = a then (getObj h b).map f else getObj h b := by
  have hfk := find_map_keyed_nat f b a h.objs
  unfold getObj mapObj
  dsimp only
  rw [hfk]
  by_cases hb : b = a
  · rw [if_pos hb, if_pos hb]
    cases h.objs.find? (fun p => p.1 == b) <;> rfl
  · rw [if_neg hb, if_neg hb]

/-- The in-place accessor replacement keeps the key list. -/
theorem map_install_keys (ps : List (String × HProp)) (k : String) (oid : Nat) :
    (ps.map (fun p => if p.1 == k then (p.1, HProp.accessor oid) else p)).map
        (fun p => p.1) = ps.map (fun p => p.1) := by
  induction ps with
  | nil => rfl
  | cons x xs ih =>
      dsimp only [List.map_cons]
      by_cases hx : (x.1 == k) = true
      · rw [if_pos hx, ih]
      · rw [if_neg hx, ih]

/-- The in-place accessor replacement keeps an all-accessor key that way. -/
theorem all_install_acc (ps : List (String × HProp)) (k k2 : String) (oid : Nat)
    (hall : ps.all (fun p => p.1 != k2 || isAcc p.2) = true) :
    (ps.map (fun p => if p.1 == k then (p.1, HProp.accessor oid) else p)).all
      (fun p => p.1 != k2 || isAcc p.2) = true := by
  rw [List.all_eq_true] at hall ⊢
  intro x hx
  obtain ⟨p, hp, hpe⟩ := List.mem_map.mp hx
  by_cases hpk : (p.1 == k) = true
  · rw [if_pos hpk] at hpe
    rw [← hpe]
    simp [isAcc]
  · rw [if_neg hpk] at hpe
    rw [← hpe]
    exact hall p hp

/-- After the accessor replacement at `k`, every property at `k` is an
accessor. -/
theorem all_install_self (ps : List (String × HProp)) (k : String) (oid : Nat) :
    (ps.map (fun p => if p.1 == k then (p.1, HProp.accessor oid) else p)).all
      (fun p => p.1 != k || isAcc p.2) = true := by
  rw [List.all_eq_true]
  intro x hx
  obtain ⟨p, hp, hpe⟩ := List.mem_map.mp hx
  by_cases hpk : (p.1 == k) = true
  · rw [if_pos hpk] at hpe
    rw [← hpe]
    simp [isAcc]
  · rw [if_neg hpk] at hpe
    rw [← hpe]
    simp only [Bool.or_eq_true]
    left
    simp only [bne_iff_ne, ne_eq]
    exact beq_eq_false_iff_ne.mp (Bool.not_eq_true _ ▸ eq_false_of_ne_true hpk)

theorem evolves_refl (h : Heap) : HEvolves h h := by
  refine ⟨fun _ => rfl, fun _ => rfl, ?_, fun _ _ hk => hk⟩
  intro b o o2 h1 h2 _
  rw [h1] at h2
  cases h2
  rfl

theorem evolves_trans {h1 h2 h3 : Heap} (a : HEvolves h1 h2) (b : HEvolves h2 h3) :
    HEvolves h1 h3 := by
  refine ⟨fun c => (b.kinds c).trans (a.kinds c), fun c => (b.keys c).trans (a.keys c), ?_,
    fun c k hk => b.accMono c k (a.accMono c k hk)⟩
  intro c o o3 hg1 hg3 hkarr
  have hmid : (getObj h2 c).map (fun o => o.kind) = some o.kind := by
    rw [a.kinds c, hg1]
    rfl
  cases hgm : getObj h2 c with
  | none => rw [hgm] at hmid; cases hmid
  | some om =>
      rw [hgm] at hmid
      have hmk : om.kind = o.kind := by
        have := Option.some.inj hmid
        exact this
      have h12 := a.arrSeal c o om hg1 hgm hkarr
      have h23 := b.arrSeal c om o3 hgm hg3 (by rw [hmk, hkarr])
      rw [h23, h12]

theorem evolves_newObservable (h : Heap) (v : HVal) : HEvolves h (newObservable h v).1 := by
  refine ⟨fun _ => rfl, fun _ => rfl, ?_, fun b k hk => hk⟩
  intro b o o2 h1 h2 _
  have h2b : getObj h b = some o2 := h2
  rw [h1] at h2b
  cases h2b
  rfl

/-- A `mapObj` whose function keeps kind, properties and (for arrays) the
sealed flag is an evolution step. -/
theorem evolves_mapObj (h : Heap) (a : Nat) (f : HObj → HObj)
    (hkind : ∀ o, (f o).kind = o.kind)
    (hprops : ∀ o, (f o).props = o.props)
    (hseal : ∀ o, getObj h a = some o → o.kind = .arr → (f o).objSealed = o.objSealed) :
    HEvolves h (mapObj h a f) := by
  refine ⟨?_, ?_, ?_, ?_⟩
  · intro b
    rw [getObj_mapObj]
    by_cases hb : b = a
    · rw [if_pos hb]
      cases getObj h b with
      | none => rfl
      | some o => exact congrArg some (hkind o)
    · rw [if_neg hb]
  · intro b
    rw [getObj_mapObj]
    by_cases hb : b = a
    · rw [if_pos hb]
      cases getObj h b with
      | none => rfl
      | some o =>
          show some ((f o).props.map (fun p => p.1)) = some (o.props.map (fun p => p.1))
          rw [hprops o]
    · rw [if_neg hb]
  · intro b o o2 hg hg2 harr
    rw [getObj_mapObj] at hg2
    by_cases hb : b = a
    · rw [if_pos hb] at hg2
      rw [hg] at hg2
      have ho2 : f o = o2 := Option.some.inj hg2
      rw [← ho2]
      exact hseal o (hb ▸ hg) harr
    · rw [if_neg hb] at hg2
      rw [hg] at hg2
      cases hg2
      rfl
  · intro b k hk
    unfold keyAcc at hk ⊢
    rw [getObj_mapObj]
    by_cases hb : b = a
    · rw [if_pos hb]
      cases hgb : getObj h b with
      | none =>
          rw [hgb] at hk
          exact hk
      | some o =>
          rw [hgb] at hk
          dsimp only [Option.map] at hk ⊢
          rw [hprops o]
          exact hk
    · rw [if_neg hb]
      exact hk

theorem evolves_installAccessor (h : Heap) (a : Nat) (k : String) (oid : Nat) :
    HEvolves h (installAccessor h a k oid) := by
  unfold installAccessor
  refine ⟨?_, ?_, ?_, ?_⟩
  · intro b
    rw [getObj_mapObj]
    by_cases hb : b = a
    · rw [if_pos hb]
      cases getObj h b with
      | none => rfl
      | some o => rfl
    · rw [if_neg hb]
  · intro b
    rw [getObj_mapObj]
    by_cases hb : b = a
    · rw [if_pos hb]
      cases getObj h b with
      | none => rfl
      | some o => exact congrArg some (map_install_keys o.props k oid)
    · rw [if_neg hb]
  · intro b o o2 hg hg2 harr
    rw [getObj_mapObj] at hg2
    by_cases hb : b = a
    · rw [if_pos hb] at hg2
      rw [hg] at hg2
      have ho2 := Option.some.inj hg2
      rw [← ho2]
    · rw [if_neg hb] at hg2
      rw [hg] at hg2
      cases hg2
      rfl
  · intro b k2 hk
    unfold keyAcc at hk ⊢
    rw [getObj_mapObj]
    by_cases hb : b = a
    · rw [if_pos hb]
      cases hgb : getObj h b with
      | none =>
          rw [hgb] at hk
          exact hk
      | some o =>
          rw [hgb] at hk
          dsimp only [Option.map] at hk ⊢
          exact all_install_acc o.props k k2 oid hk
    · rw [if_neg hb]
      exact hk


/-- One loop step is an evolution step (given that recursive observation
at smaller fuel is one). -/
theorem obsStep_evolves (fuel : Nat)
    (ih : ∀ (h : Heap) (b : Nat) (obsArg : Option Nat),
      HEvolves h (observeObject fuel h b obsArg).1)
    (h : Heap) (a : Nat) (acc : Heap × Bool) (k : String) (hacc : HEvolves h acc.1) :
    HEvolves h (obsStep fuel a acc k).1 := by
  unfold obsStep
  cases hg : getObj acc.1 a with
  | none => exact hacc
  | some cur =>
      dsimp only
      cases hfind : cur.props.find? (fun p => p.1 == k) with
      | none => exact hacc
      | some kp =>
          dsimp only
          cases hv : propValue acc.1 kp.2 with
          | fn =>
              dsimp only
              exact evolves_trans hacc (evolves_trans (evolves_newObservable _ _)
                (evolves_installAccessor _ _ _ _))
          | ref b =>
              dsimp only
              exact evolves_trans hacc (evolves_trans (evolves_newObservable _ _)
                (evolves_trans (ih _ _ _) (evolves_installAccessor _ _ _ _)))
          | prim n2 =>
              dsimp only
              exact evolves_trans hacc (evolves_trans (evolves_newObservable _ _)
                (evolves_installAccessor _ _ _ _))
          | undef =>
              dsimp only
              exact evolves_trans hacc (evolves_trans (evolves_newObservable _ _)
                (evolves_installAccessor _ _ _ _))

/-- `observeObject` only evolves the heap, at every fuel. -/
theorem observeObject_evolves : ∀ (fuel : Nat) (h : Heap) (a : Nat) (obsArg : Option Nat),
    HEvolves h (observeObject fuel h a obsArg).1 := by
  intro fuel
  induction fuel with
  | zero =>
      intro h a obsArg
      exact evolves_refl h
  | succ n ih =>
      intro h a obsArg
      rw [observeObject_succ]
      cases hg : getObj h a with
      | none => exact evolves_refl h
      | some obj =>
          dsimp only
          have hfold : HEvolves h
              (((obj.props.map (fun p => p.1)).foldl (obsStep n a) (h, true))).1 :=
            Fission.foldl_invariant (obsStep n a) (fun acc => HEvolves h acc.1)
              (fun acc k hp => obsStep_evolves n ih h a acc k hp)
              (obj.props.map (fun p => p.1)) (h, true) (evolves_refl h)
          by_cases hk : obj.kind = .arr
          · rw [if_pos hk]
            by_cases hd : obj.attachedDefined = true
            · rw [if_pos hd]
              exact hfold
            · rw [if_neg hd]
              dsimp only
              exact evolves_trans hfold
                (evolves_mapObj _ a (fun o =>
                    { o with attachedDefined := true, attachedObs := obsArg, augmented := true })
                  (fun _ => rfl) (fun _ => rfl) (fun _ _ _ => rfl))
          · rw [if_neg hk]
            dsimp only
            refine evolves_trans hfold
              (evolves_mapObj _ a (fun o => { o with objSealed := true })
                (fun _ => rfl) (fun _ => rfl) ?_)
            intro o hgo harr
            exfalso
            have hkk := hfold.kinds a
            rw [hgo, hg] at hkk
            have hko : o.kind = obj.kind := Option.some.inj hkk
            exact hk (by rw [← hko, harr])

/-- A property preserved by each step from a carried invariant is
preserved by the fold. -/
theorem foldl_preserve {α β : Type _} (f : β → α → β) (P Q : β → Prop) :
    ∀ (l : List α), (∀ b a, a ∈ l → P b → P (f b a)) →
      (∀ b a, a ∈ l → P b → Q b → Q (f b a)) →
      ∀ b, P b → Q b → Q (l.foldl f b) := by
  intro l
  induction l with
  | nil => intro _ _ b _ hq; exact hq
  | cons y ys ih =>
      intro hP hQ b hb hq
      exact ih (fun b2 a2 ha hp => hP b2 a2 (List.mem_cons_of_mem y ha) hp)
        (fun b2 a2 ha hp hq2 => hQ b2 a2 (List.mem_cons_of_mem y ha) hp hq2)
        (f b y) (hP b y (List.mem_cons_self y ys) hb)
        (hQ b y (List.mem_cons_self y ys) hb hq)

/-- A property established by an element's own step and preserved by later
steps holds of the fold for every element. -/
theorem foldl_mem_establish {α β : Type _} (f : β → α → β) (P : β → Prop) (Q : α → β → Prop) :
    ∀ (l : List α),
      (∀ b a, a ∈ l → P b → P (f b a)) →
      (∀ b a, a ∈ l → P b → Q a (f b a)) →
      (∀ b a x, a ∈ l → P b → Q x b → Q x (f b a)) →
      ∀ b, P b → ∀ x, x ∈ l → Q x (l.foldl f b) := by
  intro l
  induction l with
  | nil => intro _ _ _ b _ x hx; cases hx
  | cons y ys ih =>
      intro hP hQe hQp b hb x hx
      rw [List.foldl_cons]
      cases hx with
      | head =>
          exact foldl_preserve f P (Q y) ys
            (fun b2 a2 ha hp => hP b2 a2 (List.mem_cons_of_mem y ha) hp)
            (fun b2 a2 ha hp hq => hQp b2 a2 y (List.mem_cons_of_mem y ha) hp hq)
            (f b y) (hP b y (List.mem_cons_self y ys) hb)
            (hQe b y (List.mem_cons_self y ys) hb)
      | tail _ hmem =>
          exact ih (fun b2 a2 ha hp => hP b2 a2 (List.mem_cons_of_mem y ha) hp)
            (fun b2 a2 ha hp => hQe b2 a2 (List.mem_cons_of_mem y ha) hp)
            (fun b2 a2 x2 ha hp hq => hQp b2 a2 x2 (List.mem_cons_of_mem y ha) hp hq)
            (f b y) (hP b y (List.mem_cons_self y ys) hb) x hmem

/-- `defineReactiveProperty` makes every property at its key an accessor. -/
theorem keyAcc_installAccessor_self (h : Heap) (a : Nat) (k : String) (oid : Nat)
    (cur : HObj) (hg : getObj h a = some cur) :
    keyAcc (installAccessor h a k oid) a k = true := by
  unfold keyAcc installAccessor
  rw [getObj_mapObj, if_pos rfl, hg]
  dsimp only [Option.map]
  exact all_install_self cur.props k oid

/-- The loop step for key `k` leaves every property at `k` an accessor,
whenever `k` is a key of the current object at `a`. -/
theorem obsStep_installs (fuel : Nat)
    (ihev : ∀ (h : Heap) (b : Nat) (obsArg : Option Nat),
      HEvolves h (observeObject fuel h b obsArg).1)
    (a : Nat) (acc : Heap × Bool) (k : String) (cur : HObj)
    (hga : getObj acc.1 a = some cur) (hmem : k ∈ cur.props.map (fun p => p.1)) :
    keyAcc (obsStep fuel a acc k).1 a k = true := by
  have hfind : (cur.props.find? (fun p => p.1 == k)).isSome := by
    rw [List.find?_isSome]
    obtain ⟨p, hp, hpk⟩ := List.mem_map.mp hmem
    exact ⟨p, hp, beq_iff_eq.mpr hpk⟩
  unfold obsStep
  rw [hga]
  dsimp only
  cases hf : cur.props.find? (fun p => p.1 == k) with
  | none =>
      rw [hf] at hfind
      cases hfind
  | some kp =>
      dsimp only
      cases hv : propValue acc.1 kp.2 with
      | fn =>
          dsimp only
          exact keyAcc_installAccessor_self _ a k _ cur hga
      | ref b =>
          dsimp only
          have hev := ihev (newObservable acc.1 (HVal.ref b)).1 b
            (some (newObservable acc.1 (HVal.ref b)).2)
          have hkk := hev.kinds a
          have hga2 : getObj (newObservable acc.1 (HVal.ref b)).1 a = some cur := hga
          rw [hga2] at hkk
          cases hga3 : getObj (observeObject fuel (newObservable acc.1 (HVal.ref b)).1 b
              (some (newObservable acc.1 (HVal.ref b)).2)).1 a with
          | none =>
              rw [hga3] at hkk
              cases hkk
          | some cur2 =>
              exact keyAcc_installAccessor_self _ a k _ cur2 hga3
      | prim n2 =>
          dsimp only
          exact keyAcc_installAccessor_self _ a k _ cur hga
      | undef =>
          dsimp only
          exact keyAcc_installAccessor_self _ a k _ cur hga

/-- After `observeObject` with positive fuel, every enumerable key the
object had on entry holds only intercepted accessors. -/
theorem observeObject_installs (fuel : Nat) (h : Heap) (a : Nat) (obsArg : Option Nat)
    (obj : HObj) (hg : getObj h a = some obj) :
    ∀ k, k ∈ obj.props.map (fun p => p.1) →
      keyAcc (observeObject (fuel + 1) h a obsArg).1 a k = true := by
  intro k hk
  rw [observeObject_succ, hg]
  dsimp only
  have hP : ∀ (acc : Heap × Bool) (k2 : String), k2 ∈ obj.props.map (fun p => p.1) →
      HEvolves h acc.1 → HEvolves h (obsStep fuel a acc k2).1 :=
    fun acc k2 _ hp => obsStep_evolves fuel (observeObject_evolves fuel) h a acc k2 hp
  have hQe : ∀ (acc : Heap × Bool) (k2 : String), k2 ∈ obj.props.map (fun p => p.1) →
      HEvolves h acc.1 → keyAcc (obsStep fuel a acc k2).1 a k2 = true := by
    intro acc k2 hmem hp
    have hkk := hp.keys a
    rw [hg] at hkk
    cases hga : getObj acc.1 a with
    | none =>
        rw [hga] at hkk
        cases hkk
    | some cur =>
        rw [hga] at hkk
        have hkeys : cur.props.map (fun p => p.1) = obj.props.map (fun p => p.1) :=
          Option.some.inj hkk
        exact obsStep_installs fuel (observeObject_evolves fuel) a acc k2 cur hga
          (by rw [hkeys]; exact hmem)
  have hQp : ∀ (acc : Heap × Bool) (k2 x : String), k2 ∈ obj.props.map (fun p => p.1) →
      HEvolves h acc.1 → keyAcc acc.1 a x = true →
      keyAcc (obsStep fuel a acc k2).1 a x = true := by
    intro acc k2 x _ _ hq
    exact (obsStep_evolves fuel (observeObject_evolves fuel) acc.1 a acc k2
      (evolves_refl acc.1)).accMono a x hq
  have hfoldQ : keyAcc ((obj.props.map (fun p => p.1)).foldl (obsStep fuel a) (h, true)).1
      a k = true :=
    foldl_mem_establish (obsStep fuel a) (fun acc => HEvolves h acc.1)
      (fun k2 acc => keyAcc acc.1 a k2 = true) (obj.props.map (fun p => p.1))
      hP hQe (fun b2 a2 x ha hp hq => hQp b2 a2 x ha hp hq) (h, true) (evolves_refl h) k hk
  have hfold : HEvolves h (((obj.props.map (fun p => p.1)).foldl (obsStep fuel a) (h, true))).1 :=
    Fission.foldl_invariant (obsStep fuel a) (fun acc => HEvolves h acc.1)
      (fun acc k2 hp => obsStep_evolves fuel (observeObject_evolves fuel) h a acc k2 hp)
      (obj.props.map (fun p => p.1)) (h, true) (evolves_refl h)
  by_cases hka : obj.kind = .arr
  · rw [if_pos hka]
    by_cases hd : obj.attachedDefined = true
    · rw [if_pos hd]
      exact hfoldQ
    · rw [if_neg hd]
      dsimp only
      exact (evolves_mapObj _ a (fun o =>
          { o with attachedDefined := true, attachedObs := obsArg, augmented := true })
        (fun _ => rfl) (fun _ => rfl) (fun _ _ _ => rfl)).accMono a k hfoldQ
  · rw [if_neg hka]
    dsimp only
    refine (evolves_mapObj _ a (fun o => { o with objSealed := true })
      (fun _ => rfl) (fun _ => rfl) ?_).accMono a k hfoldQ
    intro o hgo harr
    exfalso
    have hkk := hfold.kinds a
    rw [hgo, hg] at hkk
    have hko : o.kind = obj.kind := Option.some.inj hkk
    exact hka (by rw [← hko, harr])

/-- From per-key accessor facts to `allAccessors`. -/
theorem allAccessors_of_keyAcc (h : Heap) (a : Nat) (o : HObj) (hg : getObj h a = some o)
    (hk : ∀ k, k ∈ o.props.map (fun p => p.1) → keyAcc h a k = true) :
    allAccessors h a = true := by
  unfold allAccessors
  rw [hg]
  dsimp only
  rw [List.all_eq_true]
  intro p hp
  have hkp := hk p.1 (List.mem_map.mpr ⟨p, hp, rfl⟩)
  unfold keyAcc at hkp
  rw [hg] at hkp
  dsimp only at hkp
  rw [List.all_eq_true] at hkp
  have := hkp p hp
  rw [bne_self_eq_false] at this
  rw [Bool.false_or] at this
  cases hip : p.2 with
  | data v =>
      rw [hip] at this
      exact absurd this (by simp [isAcc])
  | accessor i => rfl

/-- A non-array object is sealed by its own `observeObject` run. -/
theorem observeObject_seals (fuel : Nat) (h : Heap) (a : Nat) (obsArg : Option Nat)
    (obj : HObj) (hg : getObj h a = some obj) (hk : ¬ obj.kind = .arr) :
    ∃ o2, getObj (observeObject (fuel + 1) h a obsArg).1 a = some o2 ∧
      o2.objSealed = true := by
  rw [observeObject_succ, hg]
  dsimp only
  rw [if_neg hk]
  dsimp only
  have hfold : HEvolves h (((obj.props.map (fun p => p.1)).foldl (obsStep fuel a) (h, true))).1 :=
    Fission.foldl_invariant (obsStep fuel a) (fun acc => HEvolves h acc.1)
      (fun acc k2 hp => obsStep_evolves fuel (observeObject_evolves fuel) h a acc k2 hp)
      (obj.props.map (fun p => p.1)) (h, true) (evolves_refl h)
  have hkk := hfold.kinds a
  rw [hg] at hkk
  cases hga : getObj ((obj.props.map (fun p => p.1)).foldl (obsStep fuel a) (h, true)).1 a with
  | none =>
      rw [hga] at hkk
      cases hkk
  | some cur =>
      refine ⟨{ cur with objSealed := true }, ?_, rfl⟩
      rw [getObj_mapObj, if_pos rfl, hga]
      rfl


/-- C8: `observe` on a plain key/value aggregate returns the very same
reference it was given (not a copy), with every enumerable property
replaced by an intercepted accessor backed by an observable, the object
sealed (modelled by its sealed flag, with the key list unchanged), while
the sealed flag of every array in the heap — in particular of sequences
nested inside the aggregate — is untouched, so arrays are not sealed. -/
theorem claim8_observe_identity_accessors_seal (fuel : Nat) (h : Heap) (a : Nat) (obj : HObj)
    (hg : getObj h a = some obj) (hk : obj.kind = .plain) :
    ∃ h2 c, observe (fuel + 1) h a = .ok (h2, a, c) ∧
      allAccessors h2 a = true ∧
      (∃ o2, getObj h2 a = some o2 ∧ o2.objSealed = true ∧
        o2.props.map (fun p => p.1) = obj.props.map (fun p => p.1)) ∧
      (∀ b ob, getObj h b = some ob → ob.kind = .arr →
        ∃ o2, getObj h2 b = some o2 ∧ o2.kind = .arr ∧ o2.objSealed = ob.objSealed) := by
  have hobs : observe (fuel + 1) h a =
      .ok ((observeObject (fuel + 1) h a none).1, a, (observeObject (fuel + 1) h a none).2) := by
    unfold observe
    rw [hg]
    dsimp only
    rw [if_pos hk]
  have hnarr : ¬ obj.kind = .arr := by
    rw [hk]
    decide
  have hEv := observeObject_evolves (fuel + 1) h a none
  obtain ⟨o2, hgo2, hsl⟩ := observeObject_seals fuel h a none obj hg hnarr
  have hkeys := hEv.keys a
  rw [hgo2, hg] at hkeys
  have hkeq : o2.props.map (fun p => p.1) = obj.props.map (fun p => p.1) :=
    Option.some.inj hkeys
  refine ⟨(observeObject (fuel + 1) h a none).1, (observeObject (fuel + 1) h a none).2,
    hobs, ?_, ⟨o2, hgo2, hsl, hkeq⟩, ?_⟩
  · refine allAccessors_of_keyAcc _ a o2 hgo2 ?_
    intro k hkmem
    refine observeObject_installs fuel h a none obj hg k ?_
    rw [← hkeq]
    exact hkmem
  · intro b ob hgb harr
    have hkb := hEv.kinds b
    rw [hgb] at hkb
    cases hgb2 : getObj (observeObject (fuel + 1) h a none).1 b with
    | none =>
        rw [hgb2] at hkb
        cases hkb
    | some ob2 =>
        rw [hgb2] at hkb
        have hko : ob2.kind = ob.kind := Option.some.inj hkb
        exact ⟨ob2, rfl, by rw [hko, harr], hEv.arrSeal b ob ob2 hgb hgb2 harr⟩

theorem claim8_observe_identity_accessors_seal_witness :
    ∃ h2 c, observe 2
        (⟨[(0, ⟨.plain, [("x", .data (.prim 1)), ("a", .data (.ref 1)), ("f", .data .fn)],
            false, false, none, false⟩),
          (1, ⟨.arr, [("0", .data (.prim 5))], false, false, none, false⟩)], [], 0⟩ : Heap) 0
      = .ok (h2, 0, c) ∧
      allAccessors h2 0 = true ∧
      (∃ o2, getObj h2 0 = some o2 ∧ o2.objSealed = true ∧
        o2.props.map (fun p => p.1) = ["x", "a", "f"]) ∧
      (∃ o2, getObj h2 1 = some o2 ∧ o2.kind = .arr ∧ o2.objSealed = false) := by
  have h := claim8_observe_identity_accessors_seal 1
    (⟨[(0, ⟨.plain, [("x", .data (.prim 1)), ("a", .data (.ref 1)), ("f", .data .fn)],
        false, false, none, false⟩),
      (1, ⟨.arr, [("0", .data (.prim 5))], false, false, none, false⟩)], [], 0⟩ : Heap) 0
    ⟨.plain, [("x", .data (.prim 1)), ("a", .data (.ref 1)), ("f", .data .fn)],
      false, false, none, false⟩ rfl rfl
  obtain ⟨h2, c, he, hacc, hsl, harr⟩ := h
  exact ⟨h2, c, he, hacc, hsl,
    harr 1 ⟨.arr, [("0", .data (.prim 5))], false, false, none, false⟩ rfl rfl⟩

end FissionHeap
